import Mathlib

/-!
Verification of `src/web/assets/fix_vite_compat.py`.

The script rewrites JSDoc comment blocks (`/** ... */`) in file contents:
inside each block that contains both `<` and `>`, it first replaces every
leftmost-shortest span matching the Python regex
`\*\s*<[^>]+>.*?<\/[^>]+>` (DOTALL) by the literal text
`* [HTML example removed for Vite compatibility]`, and then escapes the
remaining angle brackets (`<` to `&lt;`, `>` to `&gt;`).  Blocks are the
leftmost-shortest matches of `/\*\*.*?\*/` (DOTALL).  The file below embeds
these substitutions as executable functions on `List Char` and proves the
behavioural claims about them, together with a model of the per-file
read-transform-write loop.
-/

namespace FixVite

/-- Whitespace class of the Python regex `\s` (for text patterns):
ASCII whitespace together with the Unicode whitespace code points that
`\s` accepts. -/
def isSpaceChar (c : Char) : Bool :=
  c = ' ' || c = '\t' || c = '\n' || c = '\r' || c = '\x0b' || c = '\x0c' ||
  c = '\x1c' || c = '\x1d' || c = '\x1e' || c = '\x1f' || c = '\x85' ||
  c = '\xa0' || c = '\u1680' || c = '\u2000' || c = '\u2001' ||
  c = '\u2002' || c = '\u2003' || c = '\u2004' || c = '\u2005' ||
  c = '\u2006' || c = '\u2007' || c = '\u2008' || c = '\u2009' ||
  c = '\u200a' || c = '\u2028' || c = '\u2029' || c = '\u202f' ||
  c = '\u205f' || c = '\u3000'

/-- The literal replacement text of the inner substitution. -/
def replText : List Char := "* [HTML example removed for Vite compatibility]".toList

/-- Greedy `\s*`: drop the leading whitespace run. -/
def skipSpaces : List Char → List Char
  | [] => []
  | c :: cs => if isSpaceChar c then skipSpaces cs else c :: cs

/-- Consume characters up to and including the first `>`; `none` when no
`>` occurs.  Together with a non-`>` first character this is the
(deterministic) match of `[^>]+>`. -/
def skipToGt : List Char → Option (List Char)
  | [] => none
  | c :: cs => if c = '>' then some cs else skipToGt cs

/-- Match `[^>]+>` at the head: at least one non-`>` character, then the
first `>`; returns the rest of the input after that `>`. -/
def matchNonGtPlusGt : List Char → Option (List Char)
  | [] => none
  | c :: cs => if c = '>' then none else skipToGt cs

/-- Match `.*?<\/[^>]+>` (lazy, DOTALL): find the earliest position where
`</` is followed by `[^>]+>`, and return the rest of the input after the
closing `>`. -/
def findCloseTag : List Char → Option (List Char)
  | [] => none
  | c :: cs =>
    if c = '<' then
      match cs with
      | d :: cs2 =>
        if d = '/' then
          match matchNonGtPlusGt cs2 with
          | some r => some r
          | none => findCloseTag cs
        else findCloseTag cs
      | [] => none
    else findCloseTag cs

/-- Match the whole inner regex `\*\s*<[^>]+>.*?<\/[^>]+>` at the head of
the input; returns the rest of the input after the match. -/
def matchTagSpan (l : List Char) : Option (List Char) :=
  match l with
  | [] => none
  | c :: cs =>
    if c = '*' then
      match skipSpaces cs with
      | d :: cs2 =>
        if d = '<' then
          match matchNonGtPlusGt cs2 with
          | some r1 => findCloseTag r1
          | none => none
        else none
      | [] => none
    else none

/-- One step of `re.sub` scanning for the inner regex, with explicit fuel
(the fuel only serves termination; `subTagSpans` supplies enough). -/
def subTagSpansF : Nat → List Char → List Char
  | 0, l => l
  | _ + 1, [] => []
  | fuel + 1, c :: cs =>
    match matchTagSpan (c :: cs) with
    | some r => replText ++ subTagSpansF fuel r
    | none => c :: subTagSpansF fuel cs

/-- `re.sub(r'\*\s*<[^>]+>.*?<\/[^>]+>', repl, comment, flags=re.DOTALL)`:
replace every leftmost, non-overlapping, shortest match by `replText`. -/
def subTagSpans (l : List Char) : List Char := subTagSpansF l.length l

/-- `comment.replace('<', '&lt;')`. -/
def replaceLt : List Char → List Char
  | [] => []
  | c :: cs => (if c = '<' then "&lt;".toList else [c]) ++ replaceLt cs

/-- `comment.replace('>', '&gt;')`. -/
def replaceGt : List Char → List Char
  | [] => []
  | c :: cs => (if c = '>' then "&gt;".toList else [c]) ++ replaceGt cs

/-- `process_comment` from the script: on a block containing both `<` and
`>`, remove the HTML-example spans and escape the remaining angle
brackets; otherwise return the block unchanged. -/
def process_comment (comment : List Char) : List Char :=
  if '<' ∈ comment ∧ '>' ∈ comment then
    replaceGt (replaceLt (subTagSpans comment))
  else comment

/-- Lazy `.*?\*/`: split the input at the first occurrence of `*/`,
returning the consumed part (closing `*/` included) and the rest. -/
def scanToClose : List Char → Option (List Char × List Char)
  | [] => none
  | c :: cs =>
    match cs with
    | d :: cs2 =>
      if c = '*' && d = '/' then some (['*', '/'], cs2)
      else (scanToClose (d :: cs2)).map (fun p => (c :: p.1, p.2))
    | [] => none

/-- Match the block regex `/\*\*.*?\*/` at the head of the input;
returns the whole matched block and the rest. -/
def matchBlock (l : List Char) : Option (List Char × List Char) :=
  match l with
  | a :: b :: c :: cs =>
    if a = '/' && b = '*' && c = '*' then
      (scanToClose cs).map (fun p => ('/' :: '*' :: '*' :: p.1, p.2))
    else none
  | _ => none

/-- `re.sub(r'/\*\*.*?\*/', process_comment, content, flags=re.DOTALL)`
with explicit fuel. -/
def fixF : Nat → List Char → List Char
  | 0, l => l
  | _ + 1, [] => []
  | fuel + 1, c :: cs =>
    match matchBlock (c :: cs) with
    | some p => process_comment p.1 ++ fixF fuel p.2
    | none => c :: fixF fuel cs

/-- `fix_jsdoc_html` from the script: rewrite every JSDoc block of the
content, leaving everything else unchanged. -/
def fix_jsdoc_html (l : List Char) : List Char := fixF l.length l

/-- `sanitize` of the specification is `fix_jsdoc_html`. -/
def sanitize (l : List Char) : List Char := fix_jsdoc_html l

/-- Head-character test. -/
def headIs (x : Char) : List Char → Bool
  | [] => false
  | c :: _ => c = x

/-- Last-character test. -/
def lastIs (x : Char) : List Char → Bool
  | [] => false
  | [c] => c = x
  | _ :: c :: cs => lastIs x (c :: cs)

/-- Whether the list contains the two-character substring `*/`. -/
def hasClose : List Char → Bool
  | [] => false
  | [_] => false
  | c :: d :: cs => (c = '*' && d = '/') || hasClose (d :: cs)

/-- A piece of the input as seen by the block scan: either a single
character outside every comment block, or a whole matched block. -/
inductive Chunk where
  | text (c : Char)
  | block (b : List Char)
deriving DecidableEq

/-- Decompose the input into text characters and matched blocks, following
exactly the scan of the outer `re.sub` (with fuel). -/
def chunksF : Nat → List Char → List Chunk
  | 0, _ => []
  | _ + 1, [] => []
  | fuel + 1, c :: cs =>
    match matchBlock (c :: cs) with
    | some p => Chunk.block p.1 :: chunksF fuel p.2
    | none => Chunk.text c :: chunksF fuel cs

/-- Decomposition of the input into out-of-block text and blocks. -/
def chunks (l : List Char) : List Chunk := chunksF l.length l

/-- Concatenate the rendering of every chunk. -/
def cat (f : Chunk → List Char) (cs : List Chunk) : List Char :=
  cs.foldr (fun ch acc => f ch ++ acc) []

/-- Render a chunk as it appears in the input. -/
def renderO : Chunk → List Char
  | Chunk.text c => [c]
  | Chunk.block b => b

/-- Render a chunk as it appears in the output: blocks are transformed by
`process_comment`, text is kept. -/
def renderF : Chunk → List Char
  | Chunk.text c => [c]
  | Chunk.block b => process_comment b

/-- Transform a chunk the way the output is produced: blocks go through
`process_comment`, text characters are kept. -/
def pcChunk : Chunk → Chunk
  | Chunk.text c => Chunk.text c
  | Chunk.block b => Chunk.block (process_comment b)

/-- The comment blocks located in the input, in order. -/
def blocksOf (l : List Char) : List (List Char) :=
  (chunks l).filterMap (fun ch => match ch with
    | Chunk.block b => some b
    | Chunk.text _ => none)

/-- The characters outside every located comment block, in order. -/
def outsideText (l : List Char) : List Char :=
  (chunks l).filterMap (fun ch => match ch with
    | Chunk.text c => some c
    | Chunk.block _ => none)

/-- Declarative shape of an inner-regex match, read off the amended claim:
`*`, a whitespace run, a complete opening tag `<[^>]+>`, arbitrary
characters, and a closing tag `</[^>]+>`. -/
def SpanShape (w : List Char) : Prop :=
  ∃ ws tag mid ctag,
    w = '*' :: ws ++ '<' :: tag ++ '>' :: mid ++ '<' :: '/' :: ctag ++ ['>'] ∧
    (∀ c ∈ ws, isSpaceChar c = true) ∧
    tag ≠ [] ∧ '>' ∉ tag ∧ ctag ≠ [] ∧ '>' ∉ ctag

/-- Shape of a span as literally described by the original claim: `*`, a
whitespace run, `<`, then any characters up to and including a closing tag
`</...>` — with no requirement of a complete opening tag. -/
def SpanShapeClaim (w : List Char) : Prop :=
  ∃ ws mid ctag,
    w = '*' :: ws ++ '<' :: mid ++ '<' :: '/' :: ctag ++ ['>'] ∧
    (∀ c ∈ ws, isSpaceChar c = true) ∧ ctag ≠ [] ∧ '>' ∉ ctag

/-- `w` is the shortest span of the amended shape starting at the head of
`l`. -/
def SpanAtHead (l w : List Char) : Prop :=
  (∃ z, l = w ++ z) ∧ SpanShape w ∧
  ∀ w' z', l = w' ++ z' → SpanShape w' → w.length ≤ w'.length

/-- No span of the amended shape starts at the head of `l`. -/
def NoSpanAtHead (l : List Char) : Prop :=
  ∀ w z, l = w ++ z → ¬ SpanShape w

/-- Declarative left-to-right rewriting described by the amended claim:
scan the block, replace each leftmost shortest span of the amended shape
by `replText`, and keep every other character. -/
inductive SpanRW : List Char → List Char → Prop where
  | nil : SpanRW [] []
  | keep (c : Char) (cs out : List Char) :
      NoSpanAtHead (c :: cs) → SpanRW cs out → SpanRW (c :: cs) (c :: out)
  | repl (w r out : List Char) :
      SpanAtHead (w ++ r) w → SpanRW r out → SpanRW (w ++ r) (replText ++ out)

/-- One console line of the script run. -/
inductive OutLine where
  | okLine (name : String)
  | errLine (name : String)
  | doneLine
deriving DecidableEq

/-- State of the surrounding world: the readable files with their contents,
which paths are writable, and the console transcript so far. -/
structure World where
  disk : String → Option (List Char)
  writeOk : String → Bool
  transcript : List OutLine

/-- One iteration of the file loop: read the file (a missing or unreadable
file raises before any write), transform, write back in place, and print a
status line; any failure is caught and printed instead. -/
def processFile (w : World) (name : String) : World :=
  match w.disk name with
  | none => { w with transcript := w.transcript ++ [OutLine.errLine name] }
  | some content =>
    if w.writeOk name then
      { w with
        disk := fun n => if n = name then some (fix_jsdoc_html content) else w.disk n,
        transcript := w.transcript ++ [OutLine.okLine name] }
    else { w with transcript := w.transcript ++ [OutLine.errLine name] }

/-- The whole run: process every file in order, then print the completion
notice; the process exit code is 0. -/
def runFiles (w : World) (files : List String) : World × Nat :=
  (let w2 := files.foldl processFile w
   { w2 with transcript := w2.transcript ++ [OutLine.doneLine] }, 0)

/-- The hardcoded file list of the script. -/
def targetFiles : List String :=
  ["background-interaction.js", "components.js", "theme-manager.js",
   "theme-toggle.js", "time-of-day-theme.js", "particle-generator.js"]

/-- Running the script with no arguments. -/
def runScript (w : World) : World × Nat := runFiles w targetFiles

/-! ## List helpers -/

theorem lastCharEq {x y : List Char} {a b : Char} (h : x ++ [a] = y ++ [b]) :
    a = b := by
  have h2 := congrArg List.reverse h
  simp only [List.reverse_append, List.reverse_cons, List.reverse_nil,
    List.nil_append, List.singleton_append] at h2
  exact (List.cons.injEq _ _ _ _ ▸ h2 : a = b ∧ _).1

theorem appendSplit {a b c d : List Char} (h : a ++ b = c ++ d)
    (hle : c.length ≤ a.length) : ∃ e, a = c ++ e ∧ d = e ++ b := by
  induction c generalizing a with
  | nil => exact ⟨a, rfl, by simpa using h.symm⟩
  | cons x c2 ih =>
    cases a with
    | nil => simp at hle
    | cons y a2 =>
      simp only [List.cons_append, List.cons.injEq] at h
      obtain ⟨rfl, h2⟩ := h
      obtain ⟨e, he1, he2⟩ := ih h2 (by simpa using hle)
      exact ⟨e, by simp [he1], he2⟩

theorem splitAtUniq {sep : Char} {u u' X X' : List Char}
    (hu : sep ∉ u) (hu' : sep ∉ u')
    (h : u ++ sep :: X = u' ++ sep :: X') : u = u' ∧ X = X' := by
  induction u generalizing u' with
  | nil =>
    cases u' with
    | nil => simpa using h
    | cons y u2 =>
      simp only [List.nil_append, List.cons_append, List.cons.injEq] at h
      exact absurd (h.1 ▸ List.mem_cons_self y u2) (h.1 ▸ hu')
  | cons x u2 ih =>
    cases u' with
    | nil =>
      simp only [List.cons_append, List.nil_append, List.cons.injEq] at h
      exact absurd (List.mem_cons_self x u2) (h.1 ▸ hu)
    | cons y u2' =>
      simp only [List.cons_append, List.cons.injEq] at h
      obtain ⟨rfl, h2⟩ := h
      have := ih (fun hm => hu (List.mem_cons_of_mem _ hm))
        (fun hm => hu' (List.mem_cons_of_mem _ hm)) h2
      exact ⟨by rw [this.1], this.2⟩

theorem firstGtMin {A B l r r' : List Char} (hA : '>' ∉ A)
    (h1 : l = A ++ '>' :: r) (h2 : l = B ++ '>' :: r') :
    r'.length ≤ r.length := by
  subst h1
  induction A generalizing B with
  | nil =>
    cases B with
    | nil =>
      simp only [List.nil_append, List.cons.injEq] at h2
      exact h2.2 ▸ le_refl _
    | cons b B2 =>
      simp only [List.nil_append, List.cons_append, List.cons.injEq] at h2
      have : r = B2 ++ '>' :: r' := h2.2
      simp [this]
      omega
  | cons a A2 ih =>
    cases B with
    | nil =>
      simp only [List.cons_append, List.nil_append, List.cons.injEq] at h2
      exact absurd (h2.1 ▸ List.mem_cons_self a A2) (h2.1 ▸ hA)
    | cons b B2 =>
      simp only [List.cons_append, List.cons.injEq] at h2
      exact ih (fun hm => hA (List.mem_cons_of_mem _ hm)) h2.2

/-! ## Decomposition of the component matchers -/

theorem skipToGt_dec {l r : List Char} (h : skipToGt l = some r) :
    ∃ p, l = p ++ '>' :: r ∧ '>' ∉ p := by
  induction l with
  | nil => simp [skipToGt] at h
  | cons c cs ih =>
    by_cases hc : c = '>'
    · subst hc
      simp only [skipToGt, if_true, eq_self_iff_true, if_pos, Option.some.injEq] at h
      exact ⟨[], by simp [h], by simp⟩
    · simp only [skipToGt, hc, if_neg hc] at h
      obtain ⟨p, hp, hnp⟩ := ih h
      refine ⟨c :: p, by simp [hp], ?_⟩
      intro hm
      rcases List.mem_cons.mp hm with h1 | h1
      · exact hc h1.symm
      · exact hnp h1

theorem skipToGt_complete {p r : List Char} (hp : '>' ∉ p) :
    skipToGt (p ++ '>' :: r) = some r := by
  induction p with
  | nil => simp [skipToGt]
  | cons c cs ih =>
    have hc : c ≠ '>' := fun h => hp (h ▸ List.mem_cons_self c cs)
    simp only [List.cons_append, skipToGt, if_neg hc]
    exact ih (fun hm => hp (List.mem_cons_of_mem _ hm))

theorem mng_dec {l r : List Char} (h : matchNonGtPlusGt l = some r) :
    ∃ t, l = t ++ '>' :: r ∧ t ≠ [] ∧ '>' ∉ t := by
  cases l with
  | nil => simp [matchNonGtPlusGt] at h
  | cons c cs =>
    by_cases hc : c = '>'
    · simp [matchNonGtPlusGt, hc] at h
    · simp only [matchNonGtPlusGt, if_neg hc] at h
      obtain ⟨p, hp, hnp⟩ := skipToGt_dec h
      refine ⟨c :: p, by simp [hp], by simp, ?_⟩
      intro hm
      rcases List.mem_cons.mp hm with h1 | h1
      · exact hc h1.symm
      · exact hnp h1

theorem mng_complete {t r : List Char} (ht : t ≠ []) (hnt : '>' ∉ t) :
    matchNonGtPlusGt (t ++ '>' :: r) = some r := by
  cases t with
  | nil => exact absurd rfl ht
  | cons c cs =>
    have hc : c ≠ '>' := fun h => hnt (h ▸ List.mem_cons_self c cs)
    simp only [List.cons_append, matchNonGtPlusGt, if_neg hc]
    exact skipToGt_complete (fun hm => hnt (List.mem_cons_of_mem _ hm))

theorem fct_nil : findCloseTag [] = none := rfl

theorem fct_singleton (c : Char) : findCloseTag [c] = none := by
  by_cases hc : c = '<' <;> simp [findCloseTag, hc]

theorem fct_cons_not_lt {c : Char} (cs : List Char) (hc : c ≠ '<') :
    findCloseTag (c :: cs) = findCloseTag cs := by
  simp [findCloseTag, hc]

theorem fct_cons_lt_not_slash {d : Char} (cs2 : List Char) (hd : d ≠ '/') :
    findCloseTag ('<' :: d :: cs2) = findCloseTag (d :: cs2) := by
  simp [findCloseTag, hd]

theorem fct_cons_lt_slash_some {cs2 r : List Char}
    (hm : matchNonGtPlusGt cs2 = some r) :
    findCloseTag ('<' :: '/' :: cs2) = some r := by
  simp [findCloseTag, hm]

theorem fct_cons_lt_slash_none {cs2 : List Char}
    (hm : matchNonGtPlusGt cs2 = none) :
    findCloseTag ('<' :: '/' :: cs2) = findCloseTag ('/' :: cs2) := by
  simp [findCloseTag, hm]

theorem fct_dec {l r : List Char} (h : findCloseTag l = some r) :
    ∃ p t, l = p ++ '<' :: '/' :: t ++ '>' :: r ∧ t ≠ [] ∧ '>' ∉ t := by
  induction l with
  | nil => simp [fct_nil] at h
  | cons c cs ih =>
    by_cases hc : c = '<'
    · subst hc
      cases cs with
      | nil => simp [fct_singleton] at h
      | cons d cs2 =>
        by_cases hd : d = '/'
        · subst hd
          cases hm : matchNonGtPlusGt cs2 with
          | some r2 =>
            rw [fct_cons_lt_slash_some hm, Option.some.injEq] at h
            subst h
            obtain ⟨t, ht, htne, htg⟩ := mng_dec hm
            exact ⟨[], t, by simp [ht], htne, htg⟩
          | none =>
            rw [fct_cons_lt_slash_none hm] at h
            obtain ⟨p, t, hp, htne, htg⟩ := ih h
            exact ⟨'<' :: p, t, by simp [hp], htne, htg⟩
        · rw [fct_cons_lt_not_slash cs2 hd] at h
          obtain ⟨p, t, hp, htne, htg⟩ := ih h
          exact ⟨'<' :: p, t, by simp [hp], htne, htg⟩
    · rw [fct_cons_not_lt cs hc] at h
      obtain ⟨p, t, hp, htne, htg⟩ := ih h
      exact ⟨c :: p, t, by simp [hp], htne, htg⟩

theorem fct_mono {c : Char} {cs r : List Char} (h : findCloseTag cs = some r) :
    ∃ r2, findCloseTag (c :: cs) = some r2 := by
  by_cases hc : c = '<'
  · subst hc
    cases cs with
    | nil => simp [fct_nil] at h
    | cons d cs2 =>
      by_cases hd : d = '/'
      · subst hd
        cases hm : matchNonGtPlusGt cs2 with
        | some r2 => exact ⟨r2, fct_cons_lt_slash_some hm⟩
        | none => exact ⟨r, by rw [fct_cons_lt_slash_none hm]; exact h⟩
      · exact ⟨r, by rw [fct_cons_lt_not_slash cs2 hd]; exact h⟩
  · exact ⟨r, by rw [fct_cons_not_lt cs hc]; exact h⟩

theorem fct_complete {t : List Char} (htne : t ≠ []) (htg : '>' ∉ t) :
    ∀ p r, ∃ r2, findCloseTag (p ++ '<' :: '/' :: t ++ '>' :: r) = some r2 := by
  intro p
  induction p with
  | nil =>
    intro r
    refine ⟨r, ?_⟩
    rw [List.nil_append]
    exact fct_cons_lt_slash_some (mng_complete htne htg)
  | cons e p2 ih =>
    intro r
    obtain ⟨r2, h2⟩ := ih r
    exact fct_mono h2

theorem fct_min {l r : List Char} (h : findCloseTag l = some r) :
    ∀ p' t' r', l = p' ++ '<' :: '/' :: t' ++ '>' :: r' → t' ≠ [] → '>' ∉ t' →
      r'.length ≤ r.length := by
  induction l with
  | nil => simp [fct_nil] at h
  | cons c cs ih =>
    intro p' t' r' heq ht' hnt'
    by_cases hc : c = '<'
    · subst hc
      cases cs with
      | nil => simp [fct_singleton] at h
      | cons d cs2 =>
        by_cases hd : d = '/'
        · subst hd
          cases hm : matchNonGtPlusGt cs2 with
          | some r2 =>
            rw [fct_cons_lt_slash_some hm, Option.some.injEq] at h
            subst h
            obtain ⟨t0, ht0, ht0ne, ht0g⟩ := mng_dec hm
            have hA : '>' ∉ ('<' :: '/' :: t0) := by
              intro hmem
              rcases List.mem_cons.mp hmem with h1 | h1
              · exact absurd h1.symm (by decide)
              rcases List.mem_cons.mp h1 with h2 | h2
              · exact absurd h2.symm (by decide)
              · exact ht0g h2
            exact @firstGtMin ('<' :: '/' :: t0) (p' ++ '<' :: '/' :: t')
              ('<' :: '/' :: cs2) r2 r' hA (by simp [ht0]) (by simp [heq])
          | none =>
            rw [fct_cons_lt_slash_none hm] at h
            cases p' with
            | nil =>
              rw [List.nil_append] at heq
              obtain ⟨h1, h2⟩ := List.cons.inj heq
              obtain ⟨h3, h4⟩ := List.cons.inj h2
              have : matchNonGtPlusGt cs2 = some r' := by
                rw [h4]
                exact mng_complete ht' hnt'
              rw [this] at hm
              exact absurd hm (by simp)
            | cons e p2 =>
              rw [List.cons_append] at heq
              obtain ⟨h1, h2⟩ := List.cons.inj heq
              exact ih h p2 t' r' h2 ht' hnt'
        · rw [fct_cons_lt_not_slash cs2 hd] at h
          cases p' with
          | nil =>
            rw [List.nil_append] at heq
            obtain ⟨h1, h2⟩ := List.cons.inj heq
            obtain ⟨h3, h4⟩ := List.cons.inj h2
            exact absurd h3 hd
          | cons e p2 =>
            rw [List.cons_append] at heq
            obtain ⟨h1, h2⟩ := List.cons.inj heq
            exact ih h p2 t' r' h2 ht' hnt'
    · rw [fct_cons_not_lt cs hc] at h
      cases p' with
      | nil =>
        rw [List.nil_append] at heq
        obtain ⟨h1, h2⟩ := List.cons.inj heq
        exact absurd h1 hc
      | cons e p2 =>
        rw [List.cons_append] at heq
        obtain ⟨h1, h2⟩ := List.cons.inj heq
        exact ih h p2 t' r' h2 ht' hnt'

theorem skipSpaces_dec (l : List Char) :
    ∃ ws, l = ws ++ skipSpaces l ∧ ∀ c ∈ ws, isSpaceChar c = true := by
  induction l with
  | nil => exact ⟨[], rfl, by simp⟩
  | cons c cs ih =>
    by_cases hc : isSpaceChar c = true
    · obtain ⟨ws, hws, hall⟩ := ih
      refine ⟨c :: ws, ?_, ?_⟩
      · simp only [skipSpaces, if_pos hc]
        simp [← hws]
      · intro x hx
        rcases List.mem_cons.mp hx with h1 | h1
        · exact h1 ▸ hc
        · exact hall x h1
    · refine ⟨[], ?_, by simp⟩
      simp only [skipSpaces, if_neg hc, List.nil_append]

theorem skipSpaces_app {ws l : List Char} (h : ∀ c ∈ ws, isSpaceChar c = true) :
    skipSpaces (ws ++ l) = skipSpaces l := by
  induction ws with
  | nil => simp
  | cons c cs ih =>
    simp only [List.cons_append, skipSpaces, if_pos (h c (List.mem_cons_self c cs))]
    exact ih (fun x hx => h x (List.mem_cons_of_mem _ hx))

theorem skipSpaces_nospace {c : Char} {cs : List Char} (h : isSpaceChar c = false) :
    skipSpaces (c :: cs) = c :: cs := by
  simp [skipSpaces, h]

/-! ## The inner regex matcher versus the declarative span shape -/

theorem mts_nil : matchTagSpan [] = none := rfl

theorem mts_not_star {c : Char} (cs : List Char) (hc : c ≠ '*') :
    matchTagSpan (c :: cs) = none := by
  simp [matchTagSpan, hc]

theorem mts_star_nilspaces {cs : List Char} (hs : skipSpaces cs = []) :
    matchTagSpan ('*' :: cs) = none := by
  simp [matchTagSpan, hs]

theorem mts_star_not_lt {cs cs2 : List Char} {d : Char}
    (hs : skipSpaces cs = d :: cs2) (hd : d ≠ '<') :
    matchTagSpan ('*' :: cs) = none := by
  simp [matchTagSpan, hs, hd]

theorem mts_star_lt_none {cs cs2 : List Char} (hs : skipSpaces cs = '<' :: cs2)
    (hm : matchNonGtPlusGt cs2 = none) :
    matchTagSpan ('*' :: cs) = none := by
  simp [matchTagSpan, hs, hm]

theorem mts_star_lt_some {cs cs2 r1 : List Char} (hs : skipSpaces cs = '<' :: cs2)
    (hm : matchNonGtPlusGt cs2 = some r1) :
    matchTagSpan ('*' :: cs) = findCloseTag r1 := by
  simp [matchTagSpan, hs, hm]

theorem mts_dec {l r : List Char} (h : matchTagSpan l = some r) :
    ∃ w0, l = w0 ++ '>' :: r ∧ SpanShape (w0 ++ ['>']) ∧ 8 ≤ w0.length + 1 ∧
      headIs '*' (w0 ++ ['>']) = true ∧
      (∀ w' z', l = w' ++ z' → SpanShape w' → w0.length + 1 ≤ w'.length) := by
  cases l with
  | nil => simp [mts_nil] at h
  | cons c cs =>
    by_cases hc : c = '*'
    swap
    · simp [mts_not_star cs hc] at h
    subst hc
    cases hs : skipSpaces cs with
    | nil => simp [mts_star_nilspaces hs] at h
    | cons d cs2 =>
      by_cases hd : d = '<'
      swap
      · simp [mts_star_not_lt hs hd] at h
      subst hd
      cases hm : matchNonGtPlusGt cs2 with
      | none => simp [mts_star_lt_none hs hm] at h
      | some r1 =>
        rw [mts_star_lt_some hs hm] at h
        obtain ⟨ws, hws, hall⟩ := skipSpaces_dec cs
        rw [hs] at hws
        obtain ⟨t, ht, htne, htg⟩ := mng_dec hm
        obtain ⟨p, ct, hp, hctne, hctg⟩ := fct_dec h
        have hws_lt : '<' ∉ ws := by
          intro hmem
          exact absurd (hall '<' hmem) (by decide)
        refine ⟨'*' :: ws ++ '<' :: t ++ '>' :: p ++ '<' :: '/' :: ct, ?_, ?_, ?_, ?_, ?_⟩
        · simp [hws, ht, hp]
        · refine ⟨ws, t, p, ct, ?_, hall, htne, htg, hctne, hctg⟩
          simp
        · have h1 : 1 ≤ t.length := List.length_pos.mpr htne
          have h2 : 1 ≤ ct.length := List.length_pos.mpr hctne
          simp only [List.length_cons, List.length_append]
          omega
        · simp [headIs]
        · intro w' z' heq hshape
          obtain ⟨ws', tag', mid', ct', hw', hall2, htne', htg', hctne', hctg'⟩ := hshape
          subst hw'
          rw [hws, ht, hp] at heq
          have hws_lt' : '<' ∉ ws' := by
            intro hmem
            exact absurd (hall2 '<' hmem) (by decide)
          simp only [List.cons_append, List.append_assoc, List.cons.injEq] at heq
          obtain ⟨-, heq⟩ := heq
          obtain ⟨hws_eq, heq2⟩ := splitAtUniq hws_lt hws_lt' heq
          obtain ⟨ht_eq, heq3⟩ := splitAtUniq htg htg' heq2
          have hr1 : r1 = mid' ++ '<' :: '/' :: ct' ++ '>' :: z' := by
            rw [hp]
            simpa using heq3
          have hz := fct_min h mid' ct' z' hr1 hctne' hctg'
          have hlen1 := congrArg List.length heq3
          have e1 := congrArg List.length hws_eq
          have e2 := congrArg List.length ht_eq
          simp only [List.length_append, List.length_cons,
            List.length_singleton] at hlen1 e1 e2 ⊢
          omega

theorem mts_complete {w : List Char} (hshape : SpanShape w) (z : List Char) :
    ∃ r, matchTagSpan (w ++ z) = some r := by
  obtain ⟨ws, tag, mid, ct, hw, hall, htne, htg, hctne, hctg⟩ := hshape
  have hform : w ++ z =
      '*' :: (ws ++ ('<' :: (tag ++ ('>' :: (mid ++ ('<' :: ('/' :: (ct ++ ('>' :: z))))))))) := by
    rw [hw]
    simp
  have hs : skipSpaces
      (ws ++ ('<' :: (tag ++ ('>' :: (mid ++ ('<' :: ('/' :: (ct ++ ('>' :: z))))))))) =
      '<' :: (tag ++ ('>' :: (mid ++ ('<' :: ('/' :: (ct ++ ('>' :: z))))))) := by
    rw [skipSpaces_app hall]
    exact skipSpaces_nospace (by decide)
  have hm : matchNonGtPlusGt (tag ++ ('>' :: (mid ++ ('<' :: ('/' :: (ct ++ ('>' :: z))))))) =
      some (mid ++ ('<' :: ('/' :: (ct ++ ('>' :: z))))) := mng_complete htne htg
  obtain ⟨r2, h2⟩ := fct_complete hctne hctg mid z
  refine ⟨r2, ?_⟩
  rw [hform, mts_star_lt_some hs hm]
  rw [show mid ++ ('<' :: ('/' :: (ct ++ ('>' :: z)))) = mid ++ '<' :: '/' :: ct ++ '>' :: z by
    simp]
  exact h2

theorem mts_none_nospan {l : List Char} (h : matchTagSpan l = none) :
    NoSpanAtHead l := by
  intro w z heq hshape
  obtain ⟨r, hr⟩ := mts_complete hshape z
  rw [← heq] at hr
  rw [h] at hr
  exact absurd hr (by simp)

theorem mts_len {l r : List Char} (h : matchTagSpan l = some r) :
    r.length + 8 ≤ l.length := by
  obtain ⟨w0, heq, -, hlen, -, -⟩ := mts_dec h
  have := congrArg List.length heq
  simp only [List.length_append, List.length_cons] at this
  omega

/-! ## hasClose and the block scanner -/

theorem hasClose_cons (c : Char) (cs : List Char) :
    hasClose (c :: cs) = ((c = '*' && headIs '/' cs) || hasClose cs) := by
  cases cs with
  | nil => simp [hasClose, headIs]
  | cons d cs2 => simp [hasClose, headIs]

theorem lastIs_cons (x c : Char) (d : Char) (cs : List Char) :
    lastIs x (c :: d :: cs) = lastIs x (d :: cs) := by
  simp [lastIs]

theorem hasClose_append (a b : List Char) :
    hasClose (a ++ b) = (hasClose a || (lastIs '*' a && headIs '/' b) || hasClose b) := by
  induction a with
  | nil => simp [hasClose, lastIs]
  | cons c a2 ih =>
    rw [List.cons_append, hasClose_cons, ih, hasClose_cons]
    cases a2 with
    | nil =>
      cases b with
      | nil => simp [headIs, lastIs, hasClose]
      | cons e b2 => simp [headIs, lastIs, hasClose, Bool.or_assoc]
    | cons d a3 =>
      rw [lastIs_cons]
      simp [headIs, Bool.or_assoc]

theorem hasClose_false_tail {c : Char} {cs : List Char}
    (h : hasClose (c :: cs) = false) : hasClose cs = false := by
  rw [hasClose_cons] at h
  exact (Bool.or_eq_false_iff.mp h).2

theorem hasClose_false_left {a b : List Char} (h : hasClose (a ++ b) = false) :
    hasClose a = false := by
  rw [hasClose_append] at h
  exact ((Bool.or_eq_false_iff.mp (Bool.or_eq_false_iff.mp h).1).1)

theorem hasClose_false_right {a b : List Char} (h : hasClose (a ++ b) = false) :
    hasClose b = false := by
  rw [hasClose_append] at h
  exact (Bool.or_eq_false_iff.mp h).2

theorem scanToClose_dec {l p r : List Char} (h : scanToClose l = some (p, r)) :
    ∃ m, p = m ++ ['*', '/'] ∧ l = m ++ '*' :: '/' :: r ∧
      hasClose (m ++ ['*']) = false := by
  induction l generalizing p r with
  | nil => simp [scanToClose] at h
  | cons c cs ih =>
    cases cs with
    | nil => simp [scanToClose] at h
    | cons d cs2 =>
      by_cases hcd : (c = '*' && d = '/') = true
      · obtain ⟨hc, hd⟩ := Bool.and_eq_true_iff.mp hcd
        have hc' : c = '*' := of_decide_eq_true hc
        have hd' : d = '/' := of_decide_eq_true hd
        subst hc'
        subst hd'
        simp [scanToClose] at h
        obtain ⟨hp, hr⟩ := h
        exact ⟨[], by simp [← hp], by simp [hr], by decide⟩
      · rw [Bool.not_eq_true] at hcd
        simp only [scanToClose, hcd, Bool.false_eq_true, if_false] at h
        cases hsc : scanToClose (d :: cs2) with
        | none => rw [hsc] at h; simp at h
        | some q =>
          rw [hsc] at h
          simp only [Option.map_some', Option.some.injEq, Prod.mk.injEq] at h
          obtain ⟨hp, hr⟩ := h
          obtain ⟨m2, hm2p, hm2l, hm2c⟩ := @ih q.1 r
            (by rw [hsc, ← hr, Prod.mk.eta])
          refine ⟨c :: m2, ?_, ?_, ?_⟩
          · rw [← hp, hm2p]
            simp
          · rw [hm2l]
            simp
          · rw [List.cons_append, hasClose_cons, Bool.or_eq_false_iff]
            refine ⟨?_, hm2c⟩
            cases m2 with
            | nil => simp [headIs]
            | cons e m3 =>
              have he : e = d := by
                have h2 := hm2l
                simp only [List.cons_append, List.cons.injEq] at h2
                exact h2.1.symm
              subst he
              simp only [List.cons_append, headIs]
              exact hcd

theorem scanToClose_complete {m : List Char} (hm : hasClose m = false) (x : List Char) :
    scanToClose (m ++ '*' :: '/' :: x) = some (m ++ ['*', '/'], x) := by
  induction m with
  | nil => simp [scanToClose]
  | cons c m2 ih =>
    have hm2 : hasClose m2 = false := hasClose_false_tail hm
    cases m2 with
    | nil => simp [scanToClose]
    | cons d m3 =>
      rw [hasClose_cons] at hm
      obtain ⟨h1, -⟩ := Bool.or_eq_false_iff.mp hm
      simp only [headIs] at h1
      have hstep : (c :: d :: m3) ++ '*' :: '/' :: x =
          c :: d :: (m3 ++ '*' :: '/' :: x) := by simp
      rw [hstep]
      have hinner : d :: (m3 ++ '*' :: '/' :: x) = (d :: m3) ++ '*' :: '/' :: x := by simp
      simp only [scanToClose, h1, Bool.false_eq_true, if_false]
      rw [hinner, ih hm2]
      simp

theorem mb_nil : matchBlock [] = none := rfl

theorem mb_one (c : Char) : matchBlock [c] = none := rfl

theorem mb_two (c d : Char) : matchBlock [c, d] = none := rfl

theorem mb_cond_false {a b c : Char} (cs : List Char)
    (h : (a = '/' && b = '*' && c = '*') = false) :
    matchBlock (a :: b :: c :: cs) = none := by
  simp only [matchBlock, h, Bool.false_eq_true, if_false]

theorem mb_cond_true (cs : List Char) :
    matchBlock ('/' :: '*' :: '*' :: cs) =
      (scanToClose cs).map (fun p => ('/' :: '*' :: '*' :: p.1, p.2)) := by
  simp [matchBlock]

theorem mb_dec {l bl r : List Char} (h : matchBlock l = some (bl, r)) :
    ∃ m, bl = '/' :: '*' :: '*' :: (m ++ ['*', '/']) ∧
      l = '/' :: '*' :: '*' :: (m ++ '*' :: '/' :: r) ∧
      hasClose (m ++ ['*']) = false := by
  match l with
  | [] => exact absurd h (by simp [mb_nil])
  | [c] => exact absurd h (by simp [mb_one])
  | [c, d] => exact absurd h (by simp [mb_two])
  | a :: b :: c :: cs =>
    by_cases hc : (a = '/' && b = '*' && c = '*') = true
    · have ha : a = '/' := of_decide_eq_true (Bool.and_eq_true_iff.mp
        (Bool.and_eq_true_iff.mp hc).1).1
      have hb : b = '*' := of_decide_eq_true (Bool.and_eq_true_iff.mp
        (Bool.and_eq_true_iff.mp hc).1).2
      have hc2 : c = '*' := of_decide_eq_true (Bool.and_eq_true_iff.mp hc).2
      subst ha
      subst hb
      subst hc2
      rw [mb_cond_true] at h
      cases hsc : scanToClose cs with
      | none => rw [hsc] at h; simp at h
      | some q =>
        rw [hsc] at h
        simp only [Option.map_some', Option.some.injEq, Prod.mk.injEq] at h
        obtain ⟨hbl, hr⟩ := h
        obtain ⟨m, hmp, hml, hmc⟩ := @scanToClose_dec cs q.1 r
          (by rw [hsc, ← hr, Prod.mk.eta])
        exact ⟨m, by rw [← hbl, hmp], by rw [hml], hmc⟩
    · rw [Bool.not_eq_true] at hc
      exact absurd h (by simp [mb_cond_false cs hc])

theorem mb_complete {m : List Char} (hm : hasClose m = false) (x : List Char) :
    matchBlock ('/' :: '*' :: '*' :: (m ++ '*' :: '/' :: x)) =
      some ('/' :: '*' :: '*' :: (m ++ ['*', '/']), x) := by
  rw [mb_cond_true, scanToClose_complete hm]
  rfl

theorem mb_len {l bl r : List Char} (h : matchBlock l = some (bl, r)) :
    r.length + 5 ≤ l.length ∧ l = bl ++ r := by
  obtain ⟨m, hbl, hml, -⟩ := mb_dec h
  constructor
  · rw [hml]
    simp only [List.length_cons, List.length_append]
    omega
  · rw [hml, hbl]
    simp

/-! ## Fuel irrelevance and unfolding equations -/

theorem subF_congr : ∀ f1 f2 l, l.length ≤ f1 → l.length ≤ f2 →
    subTagSpansF f1 l = subTagSpansF f2 l := by
  intro f1
  induction f1 with
  | zero =>
    intro f2 l h1 h2
    have : l = [] := List.length_eq_zero.mp (Nat.le_zero.mp h1)
    subst this
    cases f2 <;> rfl
  | succ f ih =>
    intro f2 l h1 h2
    cases l with
    | nil => cases f2 <;> rfl
    | cons c cs =>
      cases f2 with
      | zero => simp at h2
      | succ g =>
        simp only [List.length_cons] at h1 h2
        cases hm : matchTagSpan (c :: cs) with
        | some r =>
          have hlen := mts_len hm
          simp only [List.length_cons] at hlen
          simp only [subTagSpansF, hm]
          exact congrArg (replText ++ ·) (ih g r (by omega) (by omega))
        | none =>
          simp only [subTagSpansF, hm]
          exact congrArg (c :: ·) (ih g cs (by omega) (by omega))

theorem subTagSpans_nil : subTagSpans [] = [] := rfl

theorem subTagSpans_eq_some {c : Char} {cs r : List Char}
    (hm : matchTagSpan (c :: cs) = some r) :
    subTagSpans (c :: cs) = replText ++ subTagSpans r := by
  have hlen := mts_len hm
  simp only [List.length_cons] at hlen
  show subTagSpansF (c :: cs).length (c :: cs) = _
  simp only [List.length_cons, subTagSpansF, hm]
  exact congrArg (replText ++ ·) (subF_congr cs.length r.length r (by omega) le_rfl)

theorem subTagSpans_eq_none {c : Char} {cs : List Char}
    (hm : matchTagSpan (c :: cs) = none) :
    subTagSpans (c :: cs) = c :: subTagSpans cs := by
  show subTagSpansF (c :: cs).length (c :: cs) = _
  simp only [List.length_cons, subTagSpansF, hm]
  rfl

theorem fixF_congr : ∀ f1 f2 l, l.length ≤ f1 → l.length ≤ f2 →
    fixF f1 l = fixF f2 l := by
  intro f1
  induction f1 with
  | zero =>
    intro f2 l h1 h2
    have : l = [] := List.length_eq_zero.mp (Nat.le_zero.mp h1)
    subst this
    cases f2 <;> rfl
  | succ f ih =>
    intro f2 l h1 h2
    cases l with
    | nil => cases f2 <;> rfl
    | cons c cs =>
      cases f2 with
      | zero => simp at h2
      | succ g =>
        simp only [List.length_cons] at h1 h2
        cases hm : matchBlock (c :: cs) with
        | some p =>
          obtain ⟨hlen, -⟩ := mb_len hm
          simp only [List.length_cons] at hlen
          simp only [fixF, hm]
          exact congrArg (process_comment p.1 ++ ·) (ih g p.2 (by omega) (by omega))
        | none =>
          simp only [fixF, hm]
          exact congrArg (c :: ·) (ih g cs (by omega) (by omega))

theorem fix_nil : fix_jsdoc_html [] = [] := rfl

theorem fix_eq_some {c : Char} {cs : List Char} {p : List Char × List Char}
    (hm : matchBlock (c :: cs) = some p) :
    fix_jsdoc_html (c :: cs) = process_comment p.1 ++ fix_jsdoc_html p.2 := by
  obtain ⟨hlen, -⟩ := mb_len hm
  simp only [List.length_cons] at hlen
  show fixF (c :: cs).length (c :: cs) = _
  simp only [List.length_cons, fixF, hm]
  exact congrArg (process_comment p.1 ++ ·) (fixF_congr cs.length p.2.length p.2 (by omega) le_rfl)

theorem fix_eq_none {c : Char} {cs : List Char} (hm : matchBlock (c :: cs) = none) :
    fix_jsdoc_html (c :: cs) = c :: fix_jsdoc_html cs := by
  show fixF (c :: cs).length (c :: cs) = _
  simp only [List.length_cons, fixF, hm]
  rfl

theorem chunksF_congr : ∀ f1 f2 l, l.length ≤ f1 → l.length ≤ f2 →
    chunksF f1 l = chunksF f2 l := by
  intro f1
  induction f1 with
  | zero =>
    intro f2 l h1 h2
    have : l = [] := List.length_eq_zero.mp (Nat.le_zero.mp h1)
    subst this
    cases f2 <;> rfl
  | succ f ih =>
    intro f2 l h1 h2
    cases l with
    | nil => cases f2 <;> rfl
    | cons c cs =>
      cases f2 with
      | zero => simp at h2
      | succ g =>
        simp only [List.length_cons] at h1 h2
        cases hm : matchBlock (c :: cs) with
        | some p =>
          obtain ⟨hlen, -⟩ := mb_len hm
          simp only [List.length_cons] at hlen
          simp only [chunksF, hm]
          exact congrArg (Chunk.block p.1 :: ·) (ih g p.2 (by omega) (by omega))
        | none =>
          simp only [chunksF, hm]
          exact congrArg (Chunk.text c :: ·) (ih g cs (by omega) (by omega))

theorem chunks_nil : chunks [] = [] := rfl

theorem chunks_eq_some {c : Char} {cs : List Char} {p : List Char × List Char}
    (hm : matchBlock (c :: cs) = some p) :
    chunks (c :: cs) = Chunk.block p.1 :: chunks p.2 := by
  obtain ⟨hlen, -⟩ := mb_len hm
  simp only [List.length_cons] at hlen
  show chunksF (c :: cs).length (c :: cs) = _
  simp only [List.length_cons, chunksF, hm]
  exact congrArg (Chunk.block p.1 :: ·) (chunksF_congr cs.length p.2.length p.2 (by omega) le_rfl)

theorem chunks_eq_none {c : Char} {cs : List Char} (hm : matchBlock (c :: cs) = none) :
    chunks (c :: cs) = Chunk.text c :: chunks cs := by
  show chunksF (c :: cs).length (c :: cs) = _
  simp only [List.length_cons, chunksF, hm]
  rfl

/-! ## Escape lemmas -/

theorem appendSingletonInj {x y : List Char} {a : Char} (h : x ++ [a] = y ++ [a]) :
    x = y := by
  have h2 := congrArg List.reverse h
  simp only [List.reverse_append, List.reverse_cons, List.reverse_nil,
    List.nil_append, List.singleton_append, List.cons.injEq] at h2
  have := h2.2
  have h3 := congrArg List.reverse this
  simpa using h3

theorem replaceLt_cons_lt (cs : List Char) :
    replaceLt ('<' :: cs) = '&' :: 'l' :: 't' :: ';' :: replaceLt cs := by
  simp [replaceLt]

theorem replaceLt_cons_other {c : Char} (cs : List Char) (hc : c ≠ '<') :
    replaceLt (c :: cs) = c :: replaceLt cs := by
  simp [replaceLt, hc]

theorem replaceGt_cons_gt (cs : List Char) :
    replaceGt ('>' :: cs) = '&' :: 'g' :: 't' :: ';' :: replaceGt cs := by
  simp [replaceGt]

theorem replaceGt_cons_other {c : Char} (cs : List Char) (hc : c ≠ '>') :
    replaceGt (c :: cs) = c :: replaceGt cs := by
  simp [replaceGt, hc]

theorem replaceLt_append (a b : List Char) :
    replaceLt (a ++ b) = replaceLt a ++ replaceLt b := by
  induction a with
  | nil => rfl
  | cons c a2 ih => simp [replaceLt, ih]

theorem replaceGt_append (a b : List Char) :
    replaceGt (a ++ b) = replaceGt a ++ replaceGt b := by
  induction a with
  | nil => rfl
  | cons c a2 ih => simp [replaceGt, ih]

theorem not_lt_mem_replaceLt (l : List Char) : '<' ∉ replaceLt l := by
  induction l with
  | nil => simp [replaceLt]
  | cons c cs ih =>
    by_cases hc : c = '<'
    · subst hc
      rw [replaceLt_cons_lt]
      intro hm
      rcases List.mem_cons.mp hm with h | h
      · exact absurd h (by decide)
      rcases List.mem_cons.mp h with h | h
      · exact absurd h (by decide)
      rcases List.mem_cons.mp h with h | h
      · exact absurd h (by decide)
      rcases List.mem_cons.mp h with h | h
      · exact absurd h (by decide)
      · exact ih h
    · rw [replaceLt_cons_other cs hc]
      intro hm
      rcases List.mem_cons.mp hm with h | h
      · exact hc h.symm
      · exact ih h

theorem not_gt_mem_replaceGt (l : List Char) : '>' ∉ replaceGt l := by
  induction l with
  | nil => simp [replaceGt]
  | cons c cs ih =>
    by_cases hc : c = '>'
    · subst hc
      rw [replaceGt_cons_gt]
      intro hm
      rcases List.mem_cons.mp hm with h | h
      · exact absurd h (by decide)
      rcases List.mem_cons.mp h with h | h
      · exact absurd h (by decide)
      rcases List.mem_cons.mp h with h | h
      · exact absurd h (by decide)
      rcases List.mem_cons.mp h with h | h
      · exact absurd h (by decide)
      · exact ih h
    · rw [replaceGt_cons_other cs hc]
      intro hm
      rcases List.mem_cons.mp hm with h | h
      · exact hc h.symm
      · exact ih h

theorem mem_replaceGt_of_lt {l : List Char} (h : '<' ∈ replaceGt l) : '<' ∈ l := by
  induction l with
  | nil => simp [replaceGt] at h
  | cons c cs ih =>
    by_cases hc : c = '>'
    · subst hc
      rw [replaceGt_cons_gt] at h
      rcases List.mem_cons.mp h with h1 | h1
      · exact absurd h1 (by decide)
      rcases List.mem_cons.mp h1 with h2 | h2
      · exact absurd h2 (by decide)
      rcases List.mem_cons.mp h2 with h3 | h3
      · exact absurd h3 (by decide)
      rcases List.mem_cons.mp h3 with h4 | h4
      · exact absurd h4 (by decide)
      · exact List.mem_cons_of_mem _ (ih h4)
    · rw [replaceGt_cons_other cs hc] at h
      rcases List.mem_cons.mp h with h1 | h1
      · exact h1 ▸ List.mem_cons_self c cs
      · exact List.mem_cons_of_mem _ (ih h1)

theorem headIs_slash_replaceLt (l : List Char) :
    headIs '/' (replaceLt l) = headIs '/' l := by
  cases l with
  | nil => rfl
  | cons c cs =>
    by_cases hc : c = '<'
    · subst hc
      rw [replaceLt_cons_lt]
      simp [headIs]
    · rw [replaceLt_cons_other cs hc]
      simp [headIs]

theorem headIs_slash_replaceGt (l : List Char) :
    headIs '/' (replaceGt l) = headIs '/' l := by
  cases l with
  | nil => rfl
  | cons c cs =>
    by_cases hc : c = '>'
    · subst hc
      rw [replaceGt_cons_gt]
      simp [headIs]
    · rw [replaceGt_cons_other cs hc]
      simp [headIs]

theorem hasClose_replaceLt (l : List Char) :
    hasClose (replaceLt l) = hasClose l := by
  induction l with
  | nil => rfl
  | cons c cs ih =>
    by_cases hc : c = '<'
    · subst hc
      rw [replaceLt_cons_lt, hasClose_cons, hasClose_cons, hasClose_cons,
        hasClose_cons, hasClose_cons, ih]
      simp [headIs]
    · rw [replaceLt_cons_other cs hc, hasClose_cons, hasClose_cons, ih,
        headIs_slash_replaceLt]

theorem hasClose_replaceGt (l : List Char) :
    hasClose (replaceGt l) = hasClose l := by
  induction l with
  | nil => rfl
  | cons c cs ih =>
    by_cases hc : c = '>'
    · subst hc
      rw [replaceGt_cons_gt, hasClose_cons, hasClose_cons, hasClose_cons,
        hasClose_cons, hasClose_cons, ih]
      simp [headIs]
    · rw [replaceGt_cons_other cs hc, hasClose_cons, hasClose_cons, ih,
        headIs_slash_replaceGt]

theorem headIs_append_left {x : Char} {a : List Char} (b : List Char) (ha : a ≠ []) :
    headIs x (a ++ b) = headIs x a := by
  cases a with
  | nil => exact absurd rfl ha
  | cons c a2 => rfl

/-! ## subTagSpans preserves the block frame -/

theorem sub_mid_aux : ∀ n u, u.length ≤ n → hasClose (u ++ ['*']) = false →
    ∃ u', subTagSpans (u ++ ['*', '/']) = u' ++ ['*', '/'] ∧
      hasClose (u' ++ ['*']) = false ∧
      (headIs '/' u' = true → headIs '/' u = true) ∧
      (headIs '*' u = true → headIs '*' u' = true) := by
  intro n
  induction n with
  | zero =>
    intro u hlen hcl
    have hu : u = [] := List.length_eq_zero.mp (Nat.le_zero.mp hlen)
    subst hu
    refine ⟨[], ?_, by decide, by simp [headIs], by simp [headIs]⟩
    rw [List.nil_append, subTagSpans_eq_none (by decide),
      subTagSpans_eq_none (by decide), subTagSpans_nil]
  | succ n ih =>
    intro u hlen hcl
    cases u with
    | nil =>
      refine ⟨[], ?_, by decide, by simp [headIs], by simp [headIs]⟩
      rw [List.nil_append, subTagSpans_eq_none (by decide),
        subTagSpans_eq_none (by decide), subTagSpans_nil]
    | cons c u2 =>
      have hstep : (c :: u2) ++ ['*', '/'] = c :: (u2 ++ ['*', '/']) := rfl
      have hcl2 : hasClose (u2 ++ ['*']) = false := by
        have : (c :: u2) ++ ['*'] = c :: (u2 ++ ['*']) := rfl
        rw [this] at hcl
        exact hasClose_false_tail hcl
      cases hm : matchTagSpan (c :: (u2 ++ ['*', '/'])) with
      | none =>
        have hlen2 : u2.length ≤ n := by
          simp only [List.length_cons] at hlen
          omega
        obtain ⟨u1, hu1, hu1c, hu1h, -⟩ := ih u2 hlen2 hcl2
        refine ⟨c :: u1, ?_, ?_, ?_, ?_⟩
        · rw [hstep, subTagSpans_eq_none hm, hu1]
          rfl
        · have hform : (c :: u1) ++ ['*'] = c :: (u1 ++ ['*']) := rfl
          rw [hform, hasClose_cons, Bool.or_eq_false_iff]
          refine ⟨?_, hu1c⟩
          rw [Bool.and_eq_false_iff]
          cases hu1h2 : headIs '/' (u1 ++ ['*']) with
        | false => right; rfl
        | true =>
            left
            cases u1 with
            | nil => exact absurd hu1h2 (by decide)
            | cons e u3 =>
              have he : e = '/' := by
                have : headIs '/' ((e :: u3) ++ ['*']) = headIs '/' (e :: u3) := rfl
                rw [this] at hu1h2
                exact of_decide_eq_true hu1h2
              subst he
              have hu2head : headIs '/' u2 = true := hu1h (by rfl)
              cases u2 with
              | nil => exact absurd hu2head (by decide)
              | cons f u4 =>
                have hf : f = '/' := of_decide_eq_true hu2head
                subst hf
                have hclc : hasClose ((c :: '/' :: u4) ++ ['*']) = false := hcl
                have : hasClose ((c :: '/' :: u4) ++ ['*']) =
                    ((c = '*' && true) || hasClose (('/' :: u4) ++ ['*'])) := by
                  rw [show (c :: '/' :: u4) ++ ['*'] = c :: (('/' :: u4) ++ ['*']) from rfl,
                    hasClose_cons]
                  rfl
                rw [this, Bool.or_eq_false_iff, Bool.and_true] at hclc
                exact hclc.1
        · intro hh
          exact hh
        · intro hh
          exact hh
      | some r =>
        obtain ⟨w0, hdecomp, hshape, hlen8, hhead, -⟩ := mts_dec hm
        rw [← hstep] at hdecomp
        have hlenr : 2 ≤ r.length := by
          rcases r with _ | ⟨x, _ | ⟨y, r2⟩⟩
          · exfalso
            have h1 : (c :: u2) ++ ['*', '/'] = (c :: (u2 ++ ['*'])) ++ ['/'] := by simp
            have h2 : w0 ++ '>' :: ([] : List Char) = w0 ++ ['>'] := rfl
            rw [h1, h2] at hdecomp
            exact absurd (lastCharEq hdecomp.symm) (by decide)
          · exfalso
            have h1 : (c :: u2) ++ ['*', '/'] = (c :: (u2 ++ ['*'])) ++ ['/'] := by simp
            have h2 : w0 ++ '>' :: [x] = (w0 ++ ['>']) ++ [x] := by simp
            rw [h1, h2] at hdecomp
            have hx : x = '/' := lastCharEq hdecomp.symm
            subst hx
            have h3 : w0 ++ ['>'] = c :: (u2 ++ ['*']) := appendSingletonInj hdecomp.symm
            have h4 : c :: (u2 ++ ['*']) = (c :: u2) ++ ['*'] := rfl
            rw [h4] at h3
            exact absurd (lastCharEq h3) (by decide)
          · simp only [List.length_cons]
            omega
        have hdecomp2 : (c :: u2) ++ ['*', '/'] = (w0 ++ ['>']) ++ r := by
          rw [hdecomp]
          simp
        have hlen0 : (w0 ++ ['>']).length ≤ (c :: u2).length := by
          have hL := congrArg List.length hdecomp2
          simp only [List.length_append, List.length_cons, List.length_nil] at hL ⊢
          omega
        obtain ⟨r0, hr0a, hr0b⟩ := appendSplit hdecomp2 hlen0
        cases hw0 : w0 with
        | nil =>
          exfalso
          rw [hw0] at hlen8
          simp at hlen8
        | cons v w0t =>
          rw [hw0] at hr0a
          have hu2 : u2 = (w0t ++ ['>']) ++ r0 := by
            have h1 : ((v :: w0t) ++ ['>']) ++ r0 = v :: ((w0t ++ ['>']) ++ r0) := by simp
            rw [h1] at hr0a
            exact (List.cons.inj hr0a).2
          have hr0cl : hasClose (r0 ++ ['*']) = false := by
            have h1 : u2 ++ ['*'] = (w0t ++ ['>']) ++ (r0 ++ ['*']) := by
              rw [hu2]
              simp
            rw [h1] at hcl2
            exact hasClose_false_right hcl2
          have hr0len : r0.length ≤ n := by
            have hL := congrArg List.length hu2
            simp only [List.length_append, List.length_cons, List.length_nil] at hL hlen
            omega
          obtain ⟨u1, hu1, hu1c, hu1h, -⟩ := ih r0 hr0len hr0cl
          refine ⟨replText ++ u1, ?_, ?_, ?_, ?_⟩
          · rw [hstep, subTagSpans_eq_some hm, hr0b, hu1]
            simp
          · rw [List.append_assoc, hasClose_append, Bool.or_eq_false_iff,
              Bool.or_eq_false_iff]
            refine ⟨⟨by decide, ?_⟩, hu1c⟩
            rw [Bool.and_eq_false_iff]
            left
            decide
          · intro hh
            rw [headIs_append_left u1 (by decide)] at hh
            exact absurd hh (by decide)
          · intro hh
            rw [headIs_append_left u1 (by decide)]
            decide

theorem sub_block_mid {u : List Char} (hcl : hasClose (u ++ ['*']) = false) :
    ∃ u', subTagSpans (u ++ ['*', '/']) = u' ++ ['*', '/'] ∧
      hasClose (u' ++ ['*']) = false ∧
      (headIs '/' u' = true → headIs '/' u = true) ∧
      (headIs '*' u = true → headIs '*' u' = true) :=
  sub_mid_aux u.length u le_rfl hcl

theorem star_mid {m : List Char} (hm : hasClose (m ++ ['*']) = false) :
    ∃ m1, subTagSpans (('*' :: m) ++ ['*', '/']) = ('*' :: m1) ++ ['*', '/'] ∧
      hasClose (m1 ++ ['*']) = false := by
  by_cases hsl : headIs '/' m = true
  · cases m with
    | nil => exact absurd hsl (by decide)
    | cons f m2 =>
      have hf : f = '/' := of_decide_eq_true hsl
      subst hf
      have hnone : matchTagSpan ('*' :: (('/' :: m2) ++ ['*', '/'])) = none := by
        have hs : skipSpaces (('/' :: m2) ++ ['*', '/']) = '/' :: (m2 ++ ['*', '/']) :=
          skipSpaces_nospace (by decide)
        exact mts_star_not_lt hs (by decide)
      obtain ⟨m1, hsub, hm1c, -, -⟩ := sub_block_mid hm
      refine ⟨m1, ?_, hm1c⟩
      have hform : ('*' :: '/' :: m2) ++ ['*', '/'] = '*' :: (('/' :: m2) ++ ['*', '/']) := rfl
      rw [hform, subTagSpans_eq_none hnone, hsub]
      rfl
  · have hcl : hasClose (('*' :: m) ++ ['*']) = false := by
      have hform : ('*' :: m) ++ ['*'] = '*' :: (m ++ ['*']) := rfl
      rw [hform, hasClose_cons, Bool.or_eq_false_iff]
      refine ⟨?_, hm⟩
      rw [Bool.and_eq_false_iff]
      right
      cases m with
      | nil => decide
      | cons f m2 =>
        rw [headIs_append_left ['*'] (by simp)]
        exact Bool.not_eq_true _ ▸ hsl
    obtain ⟨u', hsub, hu'c, -, hstar⟩ := sub_block_mid hcl
    have hstar2 : headIs '*' u' = true := hstar rfl
    cases u' with
    | nil => exact absurd hstar2 (by decide)
    | cons e u1 =>
      have he : e = '*' := of_decide_eq_true hstar2
      subst he
      refine ⟨u1, hsub, ?_⟩
      have hform : ('*' :: u1) ++ ['*'] = '*' :: (u1 ++ ['*']) := rfl
      rw [hform, hasClose_cons, Bool.or_eq_false_iff] at hu'c
      exact hu'c.2

theorem pc_shape {m : List Char} (hm : hasClose (m ++ ['*']) = false) :
    ∃ m', process_comment ('/' :: '*' :: '*' :: (m ++ ['*', '/'])) =
      '/' :: '*' :: '*' :: (m' ++ ['*', '/']) ∧ hasClose (m' ++ ['*']) = false := by
  by_cases hang : '<' ∈ ('/' :: '*' :: '*' :: (m ++ ['*', '/'])) ∧
      '>' ∈ ('/' :: '*' :: '*' :: (m ++ ['*', '/']))
  · have hpc : process_comment ('/' :: '*' :: '*' :: (m ++ ['*', '/'])) =
        replaceGt (replaceLt (subTagSpans ('/' :: '*' :: '*' :: (m ++ ['*', '/'])))) := by
      simp only [process_comment, if_pos hang]
    obtain ⟨m1, hsub, hm1c⟩ := star_mid hm
    have hsub2 : subTagSpans ('/' :: '*' :: '*' :: (m ++ ['*', '/'])) =
        '/' :: '*' :: '*' :: (m1 ++ ['*', '/']) := by
      rw [subTagSpans_eq_none (mts_not_star _ (by decide))]
      have hs : skipSpaces ('*' :: (m ++ ['*', '/'])) = '*' :: (m ++ ['*', '/']) :=
        skipSpaces_nospace (by decide)
      rw [subTagSpans_eq_none (mts_star_not_lt hs (by decide))]
      have hform : '*' :: (m ++ ['*', '/']) = ('*' :: m) ++ ['*', '/'] := rfl
      rw [hform, hsub]
      rfl
    refine ⟨replaceGt (replaceLt m1), ?_, ?_⟩
    · rw [hpc, hsub2]
      rw [replaceLt_cons_other _ (by decide), replaceLt_cons_other _ (by decide),
        replaceLt_cons_other _ (by decide)]
      rw [replaceLt_append]
      rw [show replaceLt ['*', '/'] = ['*', '/'] from rfl]
      rw [replaceGt_cons_other _ (by decide), replaceGt_cons_other _ (by decide),
        replaceGt_cons_other _ (by decide)]
      rw [replaceGt_append]
      rw [show replaceGt ['*', '/'] = ['*', '/'] from rfl]
    · have h1 : replaceGt (replaceLt m1) ++ ['*'] = replaceGt (replaceLt (m1 ++ ['*'])) := by
        rw [replaceLt_append, replaceGt_append]
        rfl
      rw [h1, hasClose_replaceGt, hasClose_replaceLt]
      exact hm1c
  · refine ⟨m, ?_, hm⟩
    simp only [process_comment, if_neg hang]

/-! ## Second-pass behaviour -/

theorem hasClose_marker (m x : List Char) : hasClose (m ++ '*' :: '/' :: x) = true := by
  rw [hasClose_append]
  have h1 : hasClose ('*' :: '/' :: x) = true := by
    rw [hasClose_cons]
    simp [headIs]
  rw [h1]
  simp

theorem scan_some_of_hasClose {l : List Char} (h : hasClose l = true) :
    ∃ q, scanToClose l = some q := by
  induction l with
  | nil => simp [hasClose] at h
  | cons c cs ih =>
    cases cs with
    | nil => simp [hasClose] at h
    | cons d cs2 =>
      by_cases hcd : (c = '*' && d = '/') = true
      · exact ⟨(['*', '/'], cs2), by simp [scanToClose, hcd]⟩
      · rw [Bool.not_eq_true] at hcd
        have h2 : hasClose (d :: cs2) = true := by
          simp only [hasClose, hcd, Bool.false_or] at h
          exact h
        obtain ⟨q, hq⟩ := ih h2
        exact ⟨(c :: q.1, q.2), by simp [scanToClose, hcd, hq]⟩

theorem hasClose_false_of_scan_none {l : List Char} (h : scanToClose l = none) :
    hasClose l = false := by
  cases hc : hasClose l with
  | false => rfl
  | true =>
    obtain ⟨q, hq⟩ := scan_some_of_hasClose hc
    rw [hq] at h
    exact absurd h (by simp)

theorem mb_not_slash {c : Char} {X : List Char} (hc : c ≠ '/') :
    matchBlock (c :: X) = none := by
  match X with
  | [] => exact mb_one c
  | [d] => exact mb_two c d
  | d :: e :: X2 =>
    apply mb_cond_false
    simp [hc]

theorem fix_of_noClose {l : List Char} (h : hasClose l = false) :
    fix_jsdoc_html l = l := by
  induction l with
  | nil => rfl
  | cons c cs ih =>
    have hnone : matchBlock (c :: cs) = none := by
      cases hm : matchBlock (c :: cs) with
      | none => rfl
      | some p =>
        exfalso
        obtain ⟨m, -, hml, -⟩ := mb_dec hm
        rw [hml] at h
        rw [hasClose_cons, hasClose_cons, hasClose_cons, hasClose_marker] at h
        simp at h
    rw [fix_eq_none hnone, ih (hasClose_false_tail h)]

theorem pc_block {l bl r : List Char} (h : matchBlock l = some (bl, r)) :
    ∃ m', process_comment bl = '/' :: '*' :: '*' :: (m' ++ ['*', '/']) ∧
      hasClose (m' ++ ['*']) = false := by
  obtain ⟨m, hbl, -, hmc⟩ := mb_dec h
  rw [hbl]
  exact pc_shape hmc

theorem mb_pc {l bl r : List Char} (h : matchBlock l = some (bl, r)) (x : List Char) :
    matchBlock (process_comment bl ++ x) = some (process_comment bl, x) := by
  obtain ⟨m', hpc, hm'c⟩ := pc_block h
  rw [hpc]
  have hform : ('/' :: '*' :: '*' :: (m' ++ ['*', '/'])) ++ x =
      '/' :: '*' :: '*' :: (m' ++ '*' :: '/' :: x) := by simp
  rw [hform]
  exact mb_complete (hasClose_false_left hm'c) x

theorem fix_head (l : List Char) : (fix_jsdoc_html l).head? = l.head? := by
  cases l with
  | nil => rfl
  | cons c cs =>
    cases hm : matchBlock (c :: cs) with
    | some p =>
      rw [fix_eq_some hm]
      obtain ⟨m, hbl, hml, -⟩ := @mb_dec (c :: cs) p.1 p.2 (by rw [hm])
      obtain ⟨m', hpc, -⟩ := @pc_block (c :: cs) p.1 p.2 (by rw [hm])
      rw [hpc]
      have hc : c = '/' := (List.cons.inj hml).1
      rw [hc]
      rfl
    | none =>
      rw [fix_eq_none hm]
      rfl

theorem head_shape {l : List Char} {x : Char} (h : l.head? = some x) :
    ∃ t, l = x :: t := by
  cases l with
  | nil => simp at h
  | cons c cs =>
    simp only [List.head?_cons, Option.some.injEq] at h
    exact ⟨cs, by rw [h]⟩

theorem mb_none_fix {c : Char} {cs : List Char} (h : matchBlock (c :: cs) = none) :
    matchBlock (c :: fix_jsdoc_html cs) = none := by
  by_cases hc : c = '/'
  swap
  · exact mb_not_slash hc
  subst hc
  cases cs with
  | nil => exact mb_one '/'
  | cons d cs2 =>
    cases cs2 with
    | nil =>
      rw [fix_eq_none (mb_one d), fix_nil]
      exact mb_two '/' d
    | cons e cs3 =>
      by_cases hcond : ('/' = '/' && d = '*' && e = '*') = true
      · have hd : d = '*' := of_decide_eq_true (Bool.and_eq_true_iff.mp
          (Bool.and_eq_true_iff.mp hcond).1).2
        have he : e = '*' := of_decide_eq_true (Bool.and_eq_true_iff.mp hcond).2
        subst hd
        subst he
        rw [mb_cond_true] at h
        have hscan : scanToClose cs3 = none := by
          cases hsc : scanToClose cs3 with
          | none => rfl
          | some q => rw [hsc] at h; simp at h
        have hcs3 : hasClose cs3 = false := hasClose_false_of_scan_none hscan
        rw [fix_eq_none (mb_not_slash (by decide)),
          fix_eq_none (mb_not_slash (by decide)), fix_of_noClose hcs3]
        rw [mb_cond_true, hscan]
        rfl
      · rw [Bool.not_eq_true] at hcond
        by_cases hd : d = '*'
        swap
        · obtain ⟨t, ht⟩ := head_shape (fix_head (d :: e :: cs3))
          rw [ht]
          cases t with
          | nil => exact mb_two '/' d
          | cons f t2 =>
            apply mb_cond_false
            simp [hd]
        · subst hd
          by_cases he : e = '*'
          · exfalso
            subst he
            simp at hcond
          · rw [fix_eq_none (mb_not_slash (by decide))]
            obtain ⟨t, ht⟩ := head_shape (fix_head (e :: cs3))
            rw [ht]
            apply mb_cond_false
            simp [he]

/-! ## Idempotence and chunk structure -/

theorem pc_of_angles {x : List Char} (h : '<' ∈ x ∧ '>' ∈ x) :
    process_comment x = replaceGt (replaceLt (subTagSpans x)) := by
  simp only [process_comment, if_pos h]

theorem pc_of_not_angles {x : List Char} (h : ¬('<' ∈ x ∧ '>' ∈ x)) :
    process_comment x = x := by
  simp only [process_comment, if_neg h]

theorem pc_idem (b : List Char) :
    process_comment (process_comment b) = process_comment b := by
  by_cases hang : '<' ∈ b ∧ '>' ∈ b
  · have hnolt : '<' ∉ process_comment b := by
      rw [pc_of_angles hang]
      intro hmem
      exact not_lt_mem_replaceLt _ (mem_replaceGt_of_lt hmem)
    exact pc_of_not_angles (fun hco => hnolt hco.1)
  · rw [pc_of_not_angles hang, pc_of_not_angles hang]

theorem fix_eq_some2 {l bl r : List Char} (h : matchBlock l = some (bl, r)) :
    fix_jsdoc_html l = process_comment bl ++ fix_jsdoc_html r := by
  cases l with
  | nil => simp [mb_nil] at h
  | cons c cs => exact fix_eq_some h

theorem chunks_eq_some2 {l bl r : List Char} (h : matchBlock l = some (bl, r)) :
    chunks l = Chunk.block bl :: chunks r := by
  cases l with
  | nil => simp [mb_nil] at h
  | cons c cs => exact chunks_eq_some h

theorem fix_idem_aux : ∀ n l, l.length ≤ n →
    fix_jsdoc_html (fix_jsdoc_html l) = fix_jsdoc_html l := by
  intro n
  induction n with
  | zero =>
    intro l hlen
    have : l = [] := List.length_eq_zero.mp (Nat.le_zero.mp hlen)
    subst this
    rfl
  | succ n ih =>
    intro l hlen
    cases l with
    | nil => rfl
    | cons c cs =>
      cases hm : matchBlock (c :: cs) with
      | some p =>
        obtain ⟨hplen, -⟩ := mb_len hm
        simp only [List.length_cons] at hplen hlen
        rw [fix_eq_some hm]
        rw [fix_eq_some2 (mb_pc hm (fix_jsdoc_html p.2))]
        rw [pc_idem, ih p.2 (by omega)]
      | none =>
        rw [fix_eq_none hm, fix_eq_none (mb_none_fix hm),
          ih cs (by simp only [List.length_cons] at hlen; omega)]

theorem chunks_fix_aux : ∀ n l, l.length ≤ n →
    chunks (fix_jsdoc_html l) = (chunks l).map pcChunk := by
  intro n
  induction n with
  | zero =>
    intro l hlen
    have : l = [] := List.length_eq_zero.mp (Nat.le_zero.mp hlen)
    subst this
    rfl
  | succ n ih =>
    intro l hlen
    cases l with
    | nil => rfl
    | cons c cs =>
      cases hm : matchBlock (c :: cs) with
      | some p =>
        obtain ⟨hplen, -⟩ := mb_len hm
        simp only [List.length_cons] at hplen hlen
        rw [fix_eq_some hm]
        rw [chunks_eq_some2 (mb_pc hm (fix_jsdoc_html p.2))]
        rw [chunks_eq_some hm, ih p.2 (by omega)]
        rfl
      | none =>
        rw [fix_eq_none hm, chunks_eq_none (mb_none_fix hm), chunks_eq_none hm,
          ih cs (by simp only [List.length_cons] at hlen; omega)]
        rfl

theorem chunks_fix (l : List Char) :
    chunks (fix_jsdoc_html l) = (chunks l).map pcChunk :=
  chunks_fix_aux l.length l le_rfl

theorem cat_renderO_chunks_aux : ∀ n l, l.length ≤ n → cat renderO (chunks l) = l := by
  intro n
  induction n with
  | zero =>
    intro l hlen
    have : l = [] := List.length_eq_zero.mp (Nat.le_zero.mp hlen)
    subst this
    rfl
  | succ n ih =>
    intro l hlen
    cases l with
    | nil => rfl
    | cons c cs =>
      cases hm : matchBlock (c :: cs) with
      | some p =>
        obtain ⟨hplen, hsplit⟩ := mb_len hm
        simp only [List.length_cons] at hplen hlen
        rw [chunks_eq_some hm]
        show p.1 ++ cat renderO (chunks p.2) = c :: cs
        rw [ih p.2 (by omega), ← hsplit]
      | none =>
        rw [chunks_eq_none hm]
        show [c] ++ cat renderO (chunks cs) = c :: cs
        rw [ih cs (by simp only [List.length_cons] at hlen; omega)]
        rfl

theorem cat_renderO_chunks (l : List Char) : cat renderO (chunks l) = l :=
  cat_renderO_chunks_aux l.length l le_rfl

theorem fix_eq_cat_renderF_aux : ∀ n l, l.length ≤ n →
    fix_jsdoc_html l = cat renderF (chunks l) := by
  intro n
  induction n with
  | zero =>
    intro l hlen
    have : l = [] := List.length_eq_zero.mp (Nat.le_zero.mp hlen)
    subst this
    rfl
  | succ n ih =>
    intro l hlen
    cases l with
    | nil => rfl
    | cons c cs =>
      cases hm : matchBlock (c :: cs) with
      | some p =>
        obtain ⟨hplen, -⟩ := mb_len hm
        simp only [List.length_cons] at hplen hlen
        rw [fix_eq_some hm, chunks_eq_some hm]
        show process_comment p.1 ++ fix_jsdoc_html p.2 =
          process_comment p.1 ++ cat renderF (chunks p.2)
        rw [ih p.2 (by omega)]
      | none =>
        rw [fix_eq_none hm, chunks_eq_none hm]
        show c :: fix_jsdoc_html cs = [c] ++ cat renderF (chunks cs)
        rw [ih cs (by simp only [List.length_cons] at hlen; omega)]
        rfl

theorem fix_eq_cat_renderF (l : List Char) :
    fix_jsdoc_html l = cat renderF (chunks l) :=
  fix_eq_cat_renderF_aux l.length l le_rfl

theorem blocksOf_fix (l : List Char) :
    blocksOf (fix_jsdoc_html l) = (blocksOf l).map process_comment := by
  unfold blocksOf
  rw [chunks_fix]
  generalize chunks l = cl
  induction cl with
  | nil => rfl
  | cons ch rest ih =>
    cases ch with
    | text c => simpa [pcChunk] using ih
    | block b => simpa [pcChunk] using ih

theorem outsideText_fix (l : List Char) :
    outsideText (fix_jsdoc_html l) = outsideText l := by
  unfold outsideText
  rw [chunks_fix]
  generalize chunks l = cl
  induction cl with
  | nil => rfl
  | cons ch rest ih =>
    cases ch with
    | text c => simpa [pcChunk] using ih
    | block b => simpa [pcChunk] using ih

theorem chunks_block_shape_aux : ∀ n l, l.length ≤ n → ∀ b, Chunk.block b ∈ chunks l →
    ∃ m, b = '/' :: '*' :: '*' :: (m ++ ['*', '/']) := by
  intro n
  induction n with
  | zero =>
    intro l hlen b hb
    have : l = [] := List.length_eq_zero.mp (Nat.le_zero.mp hlen)
    subst this
    simp [chunks_nil] at hb
  | succ n ih =>
    intro l hlen b hb
    cases l with
    | nil => simp [chunks_nil] at hb
    | cons c cs =>
      cases hm : matchBlock (c :: cs) with
      | some p =>
        obtain ⟨hplen, -⟩ := mb_len hm
        simp only [List.length_cons] at hplen hlen
        rw [chunks_eq_some hm] at hb
        rcases List.mem_cons.mp hb with h1 | h1
        · obtain ⟨m, hm2, -, -⟩ := @mb_dec (c :: cs) p.1 p.2 (by rw [hm])
          have hbp : b = p.1 := by
            have := Chunk.block.inj h1
            rw [this]
          exact ⟨m, hbp ▸ hm2⟩
        · exact ih p.2 (by omega) b h1
      | none =>
        rw [chunks_eq_none hm] at hb
        rcases List.mem_cons.mp hb with h1 | h1
        · exact absurd h1 (by simp)
        · exact ih cs (by simp only [List.length_cons] at hlen; omega) b h1

theorem blocksOf_shape (l : List Char) :
    ∀ b ∈ blocksOf l, ∃ m, b = '/' :: '*' :: '*' :: (m ++ ['*', '/']) := by
  intro b hb
  unfold blocksOf at hb
  obtain ⟨ch, hch, hf⟩ := List.mem_filterMap.mp hb
  cases ch with
  | text c => simp at hf
  | block b2 =>
    simp only [Option.some.injEq] at hf
    subst hf
    exact chunks_block_shape_aux l.length l le_rfl b2 hch

/-! ## Length bounds -/

theorem lenE_cons (c : Char) (X : List Char) :
    (replaceGt (replaceLt (c :: X))).length ≤ 4 + (replaceGt (replaceLt X)).length := by
  by_cases hc : c = '<'
  · subst hc
    rw [replaceLt_cons_lt, replaceGt_cons_other _ (by decide),
      replaceGt_cons_other _ (by decide), replaceGt_cons_other _ (by decide),
      replaceGt_cons_other _ (by decide)]
    simp only [List.length_cons]
    omega
  · rw [replaceLt_cons_other _ hc]
    by_cases hg : c = '>'
    · subst hg
      rw [replaceGt_cons_gt]
      simp only [List.length_cons]
      omega
    · rw [replaceGt_cons_other _ hg]
      simp only [List.length_cons]
      omega

theorem E_replText : replaceGt (replaceLt replText) = replText := by decide

theorem lenE_sub_aux : ∀ n l, l.length ≤ n →
    (replaceGt (replaceLt (subTagSpans l))).length ≤ 6 * l.length := by
  intro n
  induction n with
  | zero =>
    intro l hlen
    have : l = [] := List.length_eq_zero.mp (Nat.le_zero.mp hlen)
    subst this
    simp [subTagSpans_nil, replaceLt, replaceGt]
  | succ n ih =>
    intro l hlen
    cases l with
    | nil => simp [subTagSpans_nil, replaceLt, replaceGt]
    | cons c cs =>
      simp only [List.length_cons] at hlen
      cases hm : matchTagSpan (c :: cs) with
      | some r =>
        have hr := mts_len hm
        simp only [List.length_cons] at hr
        rw [subTagSpans_eq_some hm, replaceLt_append, replaceGt_append]
        have h1 := ih r (by omega)
        have h2 : (replaceGt (replaceLt replText)).length = 47 := by
          rw [E_replText]
          decide
        simp only [List.length_append, List.length_cons, h2]
        omega
      | none =>
        rw [subTagSpans_eq_none hm]
        have h1 := lenE_cons c (subTagSpans cs)
        have h2 := ih cs (by omega)
        simp only [List.length_cons]
        omega

theorem pc_len (b : List Char) : (process_comment b).length ≤ 6 * b.length := by
  by_cases hang : '<' ∈ b ∧ '>' ∈ b
  · rw [pc_of_angles hang]
    exact lenE_sub_aux b.length b le_rfl
  · rw [pc_of_not_angles hang]
    omega

theorem fix_len_aux : ∀ n l, l.length ≤ n →
    (fix_jsdoc_html l).length ≤ 6 * l.length := by
  intro n
  induction n with
  | zero =>
    intro l hlen
    have : l = [] := List.length_eq_zero.mp (Nat.le_zero.mp hlen)
    subst this
    simp [fix_nil]
  | succ n ih =>
    intro l hlen
    cases l with
    | nil => simp [fix_nil]
    | cons c cs =>
      simp only [List.length_cons] at hlen
      cases hm : matchBlock (c :: cs) with
      | some p =>
        obtain ⟨hplen, hsplit⟩ := mb_len hm
        simp only [List.length_cons] at hplen
        rw [fix_eq_some hm]
        have h1 := pc_len p.1
        have h2 := ih p.2 (by omega)
        have h3 := congrArg List.length hsplit
        simp only [List.length_append, List.length_cons] at h3 ⊢
        omega
      | none =>
        rw [fix_eq_none hm]
        have h2 := ih cs (by omega)
        simp only [List.length_cons]
        omega

/-! ## The rewriting of a block follows the declarative description -/

theorem sub_spanrw_aux : ∀ n l, l.length ≤ n → SpanRW l (subTagSpans l) := by
  intro n
  induction n with
  | zero =>
    intro l hlen
    have : l = [] := List.length_eq_zero.mp (Nat.le_zero.mp hlen)
    subst this
    exact SpanRW.nil
  | succ n ih =>
    intro l hlen
    cases l with
    | nil => exact SpanRW.nil
    | cons c cs =>
      simp only [List.length_cons] at hlen
      cases hm : matchTagSpan (c :: cs) with
      | none =>
        rw [subTagSpans_eq_none hm]
        exact SpanRW.keep c cs (subTagSpans cs) (mts_none_nospan hm) (ih cs (by omega))
      | some r =>
        have hr := mts_len hm
        simp only [List.length_cons] at hr
        obtain ⟨w0, hdecomp, hshape, hlen8, -, hmin⟩ := mts_dec hm
        rw [subTagSpans_eq_some hm]
        have hl : c :: cs = (w0 ++ ['>']) ++ r := by
          rw [hdecomp]
          simp
        rw [hl]
        refine SpanRW.repl (w0 ++ ['>']) r (subTagSpans r) ⟨⟨r, rfl⟩, hshape, ?_⟩
          (ih r (by omega))
        intro w' z' heq hsh
        have := hmin w' z' (by rw [hl, heq]) hsh
        simp only [List.length_append, List.length_singleton]
        omega

theorem sub_spanrw (l : List Char) : SpanRW l (subTagSpans l) :=
  sub_spanrw_aux l.length l le_rfl

/-! ## Substring absence -/

theorem seg_absent {out pat : List Char}
    (h : ∀ i < out.length + 1, (out.drop i).take pat.length ≠ pat) :
    ¬ ∃ x y, out = x ++ pat ++ y := by
  rintro ⟨x, y, hxy⟩
  have hxlen : x.length < out.length + 1 := by
    have := congrArg List.length hxy
    simp only [List.length_append] at this
    omega
  apply h x.length hxlen
  rw [hxy, List.append_assoc, List.drop_left, List.take_left]

/-! ## Facts about the run model -/

theorem processFile_transcript (w : World) (name : String) :
    (processFile w name).transcript = w.transcript ++
      [if ((w.disk name).isSome && w.writeOk name) then OutLine.okLine name
       else OutLine.errLine name] := by
  unfold processFile
  cases hd : w.disk name with
  | none => simp
  | some content =>
    by_cases hw : w.writeOk name
    · simp [hw]
    · simp [hw]

theorem processFile_disk_isSome (w : World) (name : String) (n : String) :
    ((processFile w name).disk n).isSome = (w.disk n).isSome := by
  unfold processFile
  cases hd : w.disk name with
  | none => rfl
  | some content =>
    by_cases hw : w.writeOk name
    · simp only [hw, if_true]
      by_cases hn : n = name
      · subst hn
        simp [hd]
      · simp [hn]
    · simp [hw]

theorem processFile_writeOk (w : World) (name : String) :
    (processFile w name).writeOk = w.writeOk := by
  unfold processFile
  cases hd : w.disk name with
  | none => rfl
  | some content =>
    by_cases hw : w.writeOk name
    · simp [hw]
    · simp [hw]

theorem foldl_transcript : ∀ (files : List String) (w : World),
    (files.foldl processFile w).transcript = w.transcript ++
      files.map (fun n => if ((w.disk n).isSome && w.writeOk n) then OutLine.okLine n
        else OutLine.errLine n) := by
  intro files
  induction files with
  | nil => intro w; simp
  | cons f fs ih =>
    intro w
    show (fs.foldl processFile (processFile w f)).transcript = _
    rw [ih (processFile w f)]
    rw [processFile_transcript]
    have hmap : fs.map (fun n => if (((processFile w f).disk n).isSome &&
        (processFile w f).writeOk n) then OutLine.okLine n else OutLine.errLine n) =
        fs.map (fun n => if ((w.disk n).isSome && w.writeOk n) then OutLine.okLine n
          else OutLine.errLine n) := by
      apply List.map_congr_left
      intro n hn
      rw [processFile_disk_isSome, processFile_writeOk]
    rw [hmap]
    simp

theorem scan_none_of_noClose {t : List Char} (h : hasClose t = false) :
    scanToClose t = none := by
  cases hsc : scanToClose t with
  | none => rfl
  | some q =>
    exfalso
    obtain ⟨m, -, hml, -⟩ := @scanToClose_dec t q.1 q.2 (by rw [hsc])
    rw [hml, hasClose_marker] at h
    exact absurd h (by simp)

/-! ## The claims -/

/-- C1 (counterexample): the claim describes the replaced spans as "`*`, then
whitespace, then `<`, then any characters up to and including a closing tag
`</...>`", with no complete opening tag required.  The block
`/** *<</i> */` contains such a span (`*<</i>`), contains `<` and `>`, and
is a located block, yet the sanitizer replaces nothing in it: the output
contains no occurrence of the replacement text, because the code regex
`\*\s*<[^>]+>.*?<\/[^>]+>` additionally demands a complete opening tag
`<[^>]+>` after the `*`. -/
theorem c1_counterexample :
    blocksOf ("/** *<</i> */".toList) = ["/** *<</i> */".toList] ∧
    '<' ∈ "/** *<</i> */".toList ∧ '>' ∈ "/** *<</i> */".toList ∧
    (∃ x y, "/** *<</i> */".toList = x ++ "*<</i>".toList ++ y) ∧
    SpanShapeClaim ("*<</i>".toList) ∧
    sanitize ("/** *<</i> */".toList) = "/** *&lt;&lt;/i&gt; */".toList ∧
    ¬ ∃ x y, sanitize ("/** *<</i> */".toList) = x ++ replText ++ y := by
  refine ⟨by decide, by decide, by decide, ⟨"/** ".toList, " */".toList, by decide⟩,
    ⟨[], [], ['i'], by decide, by decide, by decide, by decide⟩, by decide, ?_⟩
  exact seg_absent (by decide)

/-- C1 (amended): for every input string and every located `/** ... */` block
containing at least one `<` and at least one `>`, the sanitizer rewrites the
block by replacing each leftmost, shortest, non-overlapping span of the form
"`*`, then zero or more whitespace characters, then a complete opening tag
(`<`, one or more non-`>` characters, `>`), then any characters (including
line breaks) up to and including a closing tag (`</`, one or more non-`>`
characters, `>`)" with the literal replacement text — the relation `SpanRW`
— and then escapes the remaining angle brackets; the transformed block is
the block's image in the output. -/
theorem c1_amended : ∀ s b, b ∈ blocksOf s → '<' ∈ b → '>' ∈ b →
    SpanRW b (subTagSpans b) ∧
    process_comment b = replaceGt (replaceLt (subTagSpans b)) ∧
    process_comment b ∈ blocksOf (sanitize s) := by
  intro s b hb hlt hgt
  refine ⟨sub_spanrw b, pc_of_angles ⟨hlt, hgt⟩, ?_⟩
  show process_comment b ∈ blocksOf (fix_jsdoc_html s)
  rw [blocksOf_fix]
  exact List.mem_map_of_mem _ hb

/-- C1 (witness): the amended claim applied to the concrete input
`/** *<a>x</a> */`. -/
theorem c1_amended_witness :
    "/** *<a>x</a> */".toList ∈ blocksOf ("/** *<a>x</a> */".toList) ∧
    ('<' ∈ "/** *<a>x</a> */".toList ∧ '>' ∈ "/** *<a>x</a> */".toList) ∧
    (SpanRW ("/** *<a>x</a> */".toList) (subTagSpans ("/** *<a>x</a> */".toList)) ∧
     process_comment ("/** *<a>x</a> */".toList) =
       replaceGt (replaceLt (subTagSpans ("/** *<a>x</a> */".toList))) ∧
     process_comment ("/** *<a>x</a> */".toList) ∈
       blocksOf (sanitize ("/** *<a>x</a> */".toList))) :=
  ⟨by decide, ⟨by decide, by decide⟩,
    c1_amended ("/** *<a>x</a> */".toList) ("/** *<a>x</a> */".toList)
      (by decide) (by decide) (by decide)⟩

/-- C2 (counterexample): the output length is not bounded by the input
length: on `/** a<b> */` the escaping of the two angle brackets lengthens
the content, so `len(sanitize(content)) <= len(content)` fails. -/
theorem c2_counterexample :
    ¬ ((sanitize ("/** a<b> */".toList)).length ≤ ("/** a<b> */".toList).length) := by
  decide

/-- C2 (amended): the output is instead linearly bounded by the input: for
every input string, `len(sanitize(content)) <= 6 * len(content)` (escaping
expands a character to at most four characters, and the 47-character
replacement text always stands for a span of at least eight characters). -/
theorem c2_amended : ∀ l, (sanitize l).length ≤ 6 * l.length := by
  intro l
  exact fix_len_aux l.length l le_rfl

/-- C3: sanitize is idempotent — a second pass over already-sanitized
content is a no-op. -/
theorem c3_idempotent : ∀ l, sanitize (sanitize l) = sanitize l := by
  intro l
  exact fix_idem_aux l.length l le_rfl

/-- C4: every located block containing both `<` and `>` is transformed to a
block containing no raw `<` and no raw `>`, and this transformed block is
the block's image in the output. -/
theorem c4_escape_exhaustive : ∀ s b, b ∈ blocksOf s → '<' ∈ b → '>' ∈ b →
    '<' ∉ process_comment b ∧ '>' ∉ process_comment b ∧
    process_comment b ∈ blocksOf (sanitize s) := by
  intro s b hb hlt hgt
  refine ⟨?_, ?_, ?_⟩
  · rw [pc_of_angles ⟨hlt, hgt⟩]
    intro hm
    exact not_lt_mem_replaceLt _ (mem_replaceGt_of_lt hm)
  · rw [pc_of_angles ⟨hlt, hgt⟩]
    exact not_gt_mem_replaceGt _
  · show process_comment b ∈ blocksOf (fix_jsdoc_html s)
    rw [blocksOf_fix]
    exact List.mem_map_of_mem _ hb

/-- C4 (witness): the claim applied to the concrete input
`/** value < 5 and > 2 */`. -/
theorem c4_witness :
    "/** value < 5 and > 2 */".toList ∈ blocksOf ("/** value < 5 and > 2 */".toList) ∧
    ('<' ∉ process_comment ("/** value < 5 and > 2 */".toList) ∧
     '>' ∉ process_comment ("/** value < 5 and > 2 */".toList) ∧
     process_comment ("/** value < 5 and > 2 */".toList) ∈
       blocksOf (sanitize ("/** value < 5 and > 2 */".toList))) :=
  ⟨by decide, c4_escape_exhaustive ("/** value < 5 and > 2 */".toList)
    ("/** value < 5 and > 2 */".toList) (by decide) (by decide) (by decide)⟩

/-- C5: sanitize changes only text strictly inside located `/** ... */`
blocks: the chunk decomposition reconstructs the input exactly, the output
is the same decomposition with only the blocks transformed, and the
characters outside every block are byte-for-byte the same, in the same
order, in input and output. -/
theorem c5_frame : ∀ s, cat renderO (chunks s) = s ∧
    sanitize s = cat renderF (chunks s) ∧
    outsideText (sanitize s) = outsideText s := by
  intro s
  exact ⟨cat_renderO_chunks s, fix_eq_cat_renderF s, outsideText_fix s⟩

/-- C6: an input with no `/** ... */` block anywhere is returned
unchanged. -/
theorem c6_no_block_identity : ∀ s, (∀ p, p < s.length → matchBlock (s.drop p) = none) →
    sanitize s = s := by
  intro s
  induction s with
  | nil => intro h; rfl
  | cons c cs ih =>
    intro h
    have h0 : matchBlock (c :: cs) = none := by
      have := h 0 (by simp)
      simpa using this
    show fix_jsdoc_html (c :: cs) = c :: cs
    rw [fix_eq_none h0]
    have h2 : ∀ p, p < cs.length → matchBlock (cs.drop p) = none := by
      intro p hp
      have := h (p + 1) (by simp only [List.length_cons]; omega)
      simpa using this
    exact congrArg (c :: ·) (ih h2)

/-- C6 (witness): the claim applied to the concrete input
`no comment markers here`. -/
theorem c6_witness :
    (∀ p, p < ("no comment markers here".toList).length →
      matchBlock (("no comment markers here".toList).drop p) = none) ∧
    sanitize ("no comment markers here".toList) = "no comment markers here".toList :=
  ⟨by decide, c6_no_block_identity ("no comment markers here".toList) (by decide)⟩

/-- C7: the run attempts every file of the list in order; a failing file
only contributes an error line and does not prevent the remaining files
from being attempted; the completion notice is always emitted at the end of
the transcript, and the process exit code is 0 regardless of per-file
failures. -/
theorem c7_run_isolation : ∀ (w : World) (files : List String),
    (runFiles w files).2 = 0 ∧
    (runFiles w files).1.transcript = w.transcript ++
      files.map (fun n => if ((w.disk n).isSome && w.writeOk n) then OutLine.okLine n
        else OutLine.errLine n) ++ [OutLine.doneLine] := by
  intro w files
  refine ⟨rfl, ?_⟩
  show (files.foldl processFile w).transcript ++ [OutLine.doneLine] = _
  rw [foldl_transcript]

/-- C8: when the read phase fails (the file is missing or unreadable), no
write is attempted: the whole disk, and in particular that file, is left
unmodified, and an error line is printed. -/
theorem c8_read_failure_no_write : ∀ (w : World) (name : String),
    w.disk name = none →
    (processFile w name).disk = w.disk ∧
    (processFile w name).transcript = w.transcript ++ [OutLine.errLine name] := by
  intro w name h
  unfold processFile
  rw [h]
  exact ⟨rfl, rfl⟩

/-- C8 (witness): the claim applied to a concrete world with an empty
disk. -/
theorem c8_witness :
    (World.mk (fun _ => none) (fun _ => true) []).disk "components.js" = none ∧
    ((processFile (World.mk (fun _ => none) (fun _ => true) []) "components.js").disk =
      (World.mk (fun _ => none) (fun _ => true) []).disk ∧
     (processFile (World.mk (fun _ => none) (fun _ => true) []) "components.js").transcript =
      (World.mk (fun _ => none) (fun _ => true) []).transcript ++
        [OutLine.errLine "components.js"]) :=
  ⟨rfl, c8_read_failure_no_write (World.mk (fun _ => none) (fun _ => true) [])
    "components.js" rfl⟩

/-- C9: an unterminated `/**` with no following `*/` is not treated as a
block and is left unchanged together with everything after it; and the
first `*/` after a `/**` always closes the block, regardless of intervening
`/**` markers inside the block middle. -/
theorem c9_scan_policy :
    (∀ t, hasClose t = false →
      sanitize ('/' :: '*' :: '*' :: t) = '/' :: '*' :: '*' :: t) ∧
    (∀ m rest, hasClose m = false →
      sanitize ('/' :: '*' :: '*' :: (m ++ '*' :: '/' :: rest)) =
        process_comment ('/' :: '*' :: '*' :: (m ++ ['*', '/'])) ++ sanitize rest) := by
  constructor
  · intro t ht
    have hmb : matchBlock ('/' :: '*' :: '*' :: t) = none := by
      rw [mb_cond_true, scan_none_of_noClose ht]
      rfl
    show fix_jsdoc_html ('/' :: '*' :: '*' :: t) = _
    rw [fix_eq_none hmb, fix_eq_none (mb_not_slash (by decide)),
      fix_eq_none (mb_not_slash (by decide)), fix_of_noClose ht]
  · intro m rest hm
    show fix_jsdoc_html _ = _
    rw [fix_eq_some (mb_complete hm rest)]
    rfl

/-- C9 (witness): the two scan-policy statements applied to concrete
inputs; the closed-block case has an intervening `/**` inside the block
middle. -/
theorem c9_witness :
    hasClose (" <a> never closed".toList) = false ∧
    sanitize ('/' :: '*' :: '*' :: " <a> never closed".toList) =
      '/' :: '*' :: '*' :: " <a> never closed".toList ∧
    hasClose (" /** inner ".toList) = false ∧
    sanitize ('/' :: '*' :: '*' :: (" /** inner ".toList ++ '*' :: '/' :: " tail".toList)) =
      process_comment ('/' :: '*' :: '*' :: (" /** inner ".toList ++ ['*', '/'])) ++
        sanitize (" tail".toList) :=
  ⟨by decide, c9_scan_policy.1 (" <a> never closed".toList) (by decide),
   by decide, c9_scan_policy.2 (" /** inner ".toList) (" tail".toList) (by decide)⟩

/-- C10: sanitize preserves the comment-block structure: the blocks of the
output are exactly the images of the blocks of the input under
`process_comment`, in order; in particular their number is unchanged, and
every output block still begins with `/**` and ends with `*/`. -/
theorem c10_blocks_preserved : ∀ s,
    blocksOf (sanitize s) = (blocksOf s).map process_comment ∧
    (blocksOf (sanitize s)).length = (blocksOf s).length ∧
    ∀ b ∈ blocksOf (sanitize s), ∃ m, b = '/' :: '*' :: '*' :: (m ++ ['*', '/']) := by
  intro s
  have h1 : blocksOf (sanitize s) = (blocksOf s).map process_comment := blocksOf_fix s
  refine ⟨h1, by rw [h1, List.length_map], ?_⟩
  exact blocksOf_shape (sanitize s)

/-- C10 (witness): the claim applied to the concrete input
`/** <b>x</b> */ mid /** plain */`, whose output has the same two blocks. -/
theorem c10_witness :
    blocksOf (sanitize ("/** <b>x</b> */ mid /** plain */".toList)) =
      (blocksOf ("/** <b>x</b> */ mid /** plain */".toList)).map process_comment ∧
    (blocksOf (sanitize ("/** <b>x</b> */ mid /** plain */".toList))).length =
      (blocksOf ("/** <b>x</b> */ mid /** plain */".toList)).length ∧
    ∀ b ∈ blocksOf (sanitize ("/** <b>x</b> */ mid /** plain */".toList)),
      ∃ m, b = '/' :: '*' :: '*' :: (m ++ ['*', '/']) :=
  c10_blocks_preserved ("/** <b>x</b> */ mid /** plain */".toList)

end FixVite
